import Mathlib

/-!
# bin2c: binary files to C byte arrays

A shallow embedding of `bin2c.c` (the build without `USE_LIBZ`, the only one
the source compiles to: the `USE_LIBZ` branch names an undeclared
`pu8DestBufSize`).

Conventions of the embedding:
* a C string is the list of its characters before the terminating NUL;
* a byte of a `uint8` buffer is a natural number, masked with `&&& 0xff`
  where the source masks it with `& 0xffu`;
* `unsigned long` arithmetic is taken modulo `2 ^ 64`;
* undefined behaviour (a read or a store outside an allocation, a read of
  bytes that were never written, a NULL string handed to `fopen` or
  `printf`, a block freed twice) is the result `none`;
* the diagnostics that `log` and `logStr` print on standard output are not
  part of the model; standard error and the files on disk are.
-/

namespace Bin2c

/-- A C string: its characters, the terminating NUL left out. -/
abbrev CStr := List Char

/-! ## Identifier synthesis: `add_export`, `print_exports` -/

/-- The libc `isalnum` in the "C" locale (the program never calls `setlocale`). -/
def isalnum (c : Char) : Bool :=
  decide (('0' ≤ c ∧ c ≤ '9') ∨ ('A' ≤ c ∧ c ≤ 'Z') ∨ ('a' ≤ c ∧ c ≤ 'z'))

/-- The loop of `my_strrchr`: `ptr` is the last match seen so far; a pointer
into the string is the suffix that starts there. -/
def my_strrchr_loop (c : Char) : CStr → Option CStr → Option CStr
  | [], ptr => ptr
  | x :: xs, ptr => my_strrchr_loop c xs (if x = c then some (x :: xs) else ptr)

/-- The source's `my_strrchr`: the suffix starting at the last occurrence of
`c`, or `none` (NULL) when `c` does not occur. -/
def my_strrchr (s : CStr) (c : Char) : Option CStr :=
  my_strrchr_loop c s none

/-- The libc `strrchr` that `add_export` calls; `my_strrchr` is the source's
own replacement for it, with the same contract (for `c` other than NUL). -/
def strrchr (s : CStr) (c : Char) : Option CStr :=
  my_strrchr s c

/-- Size of `static char strname[1024]`. -/
def STRNAME_SIZE : Nat := 1024

/-- The characters `add_export` stores in `strname` before the suffix:
the leading underscore, the extension after its dot and an underscore when
there is an extension, then the characters of `begin` up to `ext` (all of
`begin` when there is no extension), each kept when `isalnum` and replaced by
an underscore otherwise. `begin` is the result of `strrchr(filename, '/')`,
or `filename` when that is NULL. -/
def add_export_stem (filename : CStr) : CStr :=
  let begin := match strrchr filename '/' with
    | some p => p
    | none => filename
  let ext := strrchr begin '.'
  let strname : CStr := ['_']
  let strname := match ext with
    | some e => strname ++ e.drop 1 ++ ['_']
    | none => strname
  let base := match ext with
    | some e => begin.take (begin.length - e.length)
    | none => begin
  strname ++ base.map (fun c => if isalnum c then c else '_')

/-- The C string that `add_export` leaves in `strname`: the stem followed by
`data` when `strname[idx - 1] == '_'` and by `_data` otherwise. -/
def add_export_name (filename : CStr) : CStr :=
  let strname := add_export_stem filename
  if strname.getLast? = some '_' then strname ++ "data".toList
  else strname ++ "_data".toList

/-- The values a `char *export_data` takes in the program: every record is
given the address of the one static buffer `strname`. -/
inductive CharPtr where
  | strname : CharPtr
  deriving DecidableEq

/-- One record of the export list; the `next` field is the tail of the list
that holds the record. -/
structure export_list_t where
  export_data : CharPtr
  deriving DecidableEq

/-- The static data of `add_export` and `print_exports`: the contents of
`strname` (as a C string) and the chain that starts at `exports_head`. -/
structure Exports where
  strname : CStr
  exports_head : List export_list_t
  deriving DecidableEq

/-- The state at program start: `strname` zeroed, `exports_head == NULL`. -/
def Exports.init : Exports :=
  { strname := [], exports_head := [] }

/-- Reading the C string a record points to. -/
def Exports.deref (st : Exports) : CharPtr → CStr
  | CharPtr.strname => st.strname

/-- The function `add_export`: writes the identifier into `strname` and
prepends a record pointing to `strname`; returns the string it points to.
`none` when the identifier and its NUL do not fit the 1024 bytes. -/
def add_export (filename : CStr) (st : Exports) : Option (CStr × Exports) :=
  let name := add_export_name filename
  if name.length + 1 ≤ STRNAME_SIZE then
    some (name, { strname := name, exports_head := ⟨CharPtr.strname⟩ :: st.exports_head })
  else none

/-- The function `print_exports`: the text appended to the file, one
`"\t%s\n"` per record from the head on. -/
def print_exports (st : Exports) : List Char :=
  st.exports_head.flatMap (fun els => '\t' :: st.deref els.export_data ++ ['\n'])

/-- Calling `add_export` for the files of a run, in processing order. -/
def add_exports : List CStr → Exports → Option Exports
  | [], st => some st
  | f :: fs, st =>
    match add_export f st with
    | some (_, st1) => add_exports fs st1
    | none => none

/-- Whether a character may stand in a C identifier: `[A-Za-z0-9_]`. -/
def is_ident_char (c : Char) : Bool :=
  isalnum c || c == '_'

/-! ## Array emission: lines 386-408 of `main` -/

/-- Arithmetic on `unsigned long` is modulo this number. -/
def ULONG_MOD : Nat := 2 ^ 64

/-- The conversion `%02x` of `printf`: lowercase hexadecimal, padded with
zeros on the left to at least two digits. -/
def fmt_02x (v : Nat) : List Char :=
  let ds := Nat.toDigits 16 v
  List.replicate (2 - ds.length) '0' ++ ds

/-- The text one iteration of the `for` loop writes for index `j` holding the
byte `b`: the `switch (j % 8)` with its cases 0, 7 and default. -/
def emit_item (j b : Nat) : List Char :=
  if j % 8 = 0 then "  0x".toList ++ fmt_02x (b &&& 0xff) ++ ", ".toList
  else if j % 8 = 7 then "0x".toList ++ fmt_02x (b &&& 0xff) ++ ",\n".toList
  else "0x".toList ++ fmt_02x (b &&& 0xff) ++ ", ".toList

/-- The loop `for (j = 0; j < last; j++)`: the first argument counts the
iterations still to run (`last - j`), `out` is the text written so far.
`pu8Dest[j]?` is the read of `pu8Dest[j]`; `none` when it is not a byte of
the buffer. -/
def emit_loop (pu8Dest : List Nat) : Nat → Nat → List Char → Option (List Char)
  | 0, _, out => some out
  | n + 1, j, out =>
    match pu8Dest[j]? with
    | none => none
    | some b => emit_loop pu8Dest n (j + 1) (out ++ emit_item j b)

/-- The text written for the last byte, with the terminator: the
`if ((ulDestLen - 1) % 8 == 0)` after the loop; `last` is `ulDestLen - 1`. -/
def emit_last (last b : Nat) : List Char :=
  if last % 8 = 0 then "  0x".toList ++ fmt_02x (b &&& 0xff) ++ "\n\x7d;\n\n".toList
  else "0x".toList ++ fmt_02x (b &&& 0xff) ++ "\n\x7d;\n\n".toList

/-- Lines 389-407 with `last` standing for the value of `ulDestLen - 1`: the
loop up to `last`, then the byte `pu8Dest[last]` and the terminator. -/
def emit_upto (pu8Dest : List Nat) (last : Nat) : Option (List Char) :=
  match emit_loop pu8Dest last 0 [] with
  | none => none
  | some body =>
    match pu8Dest[last]? with
    | none => none
    | some b => some (body ++ emit_last last b)

/-- Lines 389-407: the array body written for the buffer `pu8Dest` and the
length `ulDestLen`, where `ulDestLen - 1` is computed in `unsigned long`. -/
def emit_array (pu8Dest : List Nat) (ulDestLen : Nat) : Option (List Char) :=
  emit_upto pu8Dest ((ulDestLen + ULONG_MOD - 1) % ULONG_MOD)

/-! ### The layout as the specification words it -/

/-- The lowercase hexadecimal digit of a value below 16. -/
def hex_digit (d : Nat) : Char :=
  "0123456789abcdef".toList.getD d '0'

/-- A literal: `0x` followed by the two lowercase hexadecimal digits of the
byte value. -/
def spec_literal (b : Nat) : List Char :=
  ['0', 'x', hex_digit (b % 256 / 16), hex_digit (b % 16)]

/-- A line of the array body: two spaces, then the literals of its bytes
separated by a comma and a space. -/
def spec_line (bs : List Nat) : List Char :=
  "  ".toList ++ ", ".toList.intercalate (bs.map spec_literal)

/-- The array body for the given lines: a comma and a line break between
two lines, none after the final literal, then the terminator. -/
def spec_array_body (lines : List (List Nat)) : List Char :=
  ",\n".toList.intercalate (lines.map spec_line) ++ "\n\x7d;\n\n".toList

/-- The value of a lowercase hexadecimal digit. -/
def hexval (c : Char) : Nat :=
  if '0' ≤ c ∧ c ≤ '9' then c.toNat - '0'.toNat
  else if 'a' ≤ c ∧ c ≤ 'f' then c.toNat - 'a'.toNat + 10
  else 0

/-- Reading a text back: the values of the literals `0x` and two digits, in
the order they occur. -/
def read_literals : List Char → List Nat
  | '0' :: 'x' :: h :: l :: rest => (16 * hexval h + hexval l) :: read_literals rest
  | _ :: rest => read_literals rest
  | [] => []

/-- The text the loop writes for the bytes `bs`, the first of which has
index `j`, none of them being the last byte of the array. -/
def render_items (j : Nat) : List Nat → List Char
  | [] => []
  | b :: bs => emit_item j b ++ render_items (j + 1) bs

/-- The text written for the bytes `bs`, the first of which has index `j`
and the last of which is the last byte of the array. -/
def render_all (j : Nat) : List Nat → List Char
  | [] => []
  | [b] => emit_last j b
  | b :: b1 :: bs => emit_item j b ++ render_all (j + 1) (b1 :: bs)

/-! ## Command line: `parser_args` -/

/-- Whether `argv[i][0] == '-'` and `argv[i][1] == c`. -/
def is_flag (arg : CStr) (c : Char) : Bool :=
  arg[0]? == some '-' && arg[1]? == some c

/-- The variables `parser_args` sets: `pOutputfile` (`none` is NULL), the
slots of `ppFilelist` as `calloc` returned them (`none` is NULL) and the
local `list_idx`. -/
structure Args where
  pOutputfile : Option CStr
  ppFilelist : List (Option CStr)
  list_idx : Nat
  deriving DecidableEq

/-- The loop `while (i < argc)`; the list holds `argv[i]`, `argv[i + 1]`, ...
up to `argv[argc - 1]`, so `argv[++i]` is the head of the tail. A token
`-o...` takes the next token as output path; when there is none the path is
`argv[argc]`, that is NULL, which `logStr` hands to `printf`. A token `-h...`
or `-?...` returns 1. Every other token, the other `-` tokens included (they
fall through to `default`), is stored at `ppFilelist[list_idx++]`, which is
`none` when that slot does not exist. An end of the loop returns `ret`, 0. -/
def parse_loop : List CStr → Args → Option (Nat × Args)
  | [], st => some (0, st)
  | arg :: rest, st =>
    if is_flag arg 'o' then
      match rest with
      | [] => none
      | path :: rest1 => parse_loop rest1 { st with pOutputfile := some path }
    else if is_flag arg 'h' || is_flag arg '?' then some (1, st)
    else if st.list_idx < st.ppFilelist.length then
      parse_loop rest { st with ppFilelist := st.ppFilelist.set st.list_idx (some arg),
                                list_idx := st.list_idx + 1 }
    else none

/-- The function `parser_args`; `argc` is the length of `argv`. Returns 1
when `argc < 4`; otherwise allocates `argc - 3` slots and runs the loop from
`i = 1`. -/
def parser_args (argv : List CStr) : Option (Nat × Args) :=
  if argv.length < 4 then some (1, { pOutputfile := none, ppFilelist := [], list_idx := 0 })
  else parse_loop (argv.drop 1)
    { pOutputfile := none, ppFilelist := List.replicate (argv.length - 3) none, list_idx := 0 }

/-! ## The run: `error`, the reading loop, `main` -/

/-- Chunk size of the reading loop and growth step of the source buffer. -/
def BUF_SIZE : Nat := 16384

/-- What the program sees and changes outside itself: the files on disk
(path and content), the simulated read failures (a path and the offset at
which reading that file fails), the paths that cannot be opened for writing,
the largest size `realloc` grants, and the text on standard error. -/
structure World where
  fs : List (CStr × List Nat)
  read_fault : List (CStr × Nat)
  unwritable : List CStr
  heap_limit : Nat
  stderr : List Char
  deriving DecidableEq

/-- Creating or replacing the file at `path`. -/
def fs_write (fs : List (CStr × List Nat)) (path : CStr) (content : List Nat) :
    List (CStr × List Nat) :=
  (path, content) :: fs.filter (fun e => e.1 ≠ path)

/-- The libc `remove`. -/
def fs_remove (fs : List (CStr × List Nat)) (path : CStr) : List (CStr × List Nat) :=
  fs.filter (fun e => e.1 ≠ path)

/-- The two buffer pointers and the allocator: a pointer is the number of
the block it points to (`none` is NULL), `live` is the one block currently
allocated, `fresh` numbers the next block. A `realloc` that succeeds gives a
block with a new number: the old pointer value is no longer valid. -/
structure Heap where
  pu8Source : Option Nat
  pu8Dest : Option Nat
  live : Option Nat
  fresh : Nat
  deriving DecidableEq

/-- The libc `free`: nothing for NULL, `none` for a block that is not
allocated (any more). -/
def Heap.free (h : Heap) : Option Nat → Option Heap
  | none => some h
  | some b => if h.live = some b then some { h with live := none } else none

/-- The global variables of the run. `source` holds the bytes of the source
buffer that have been written; the buffer has `ulSourceBufSize` bytes, the
rest of them indeterminate. `outpath` and `outtext` are the output stream:
its path and the text written to it, which reaches the disk when the stream
is closed. -/
structure Globals where
  heap : Heap
  source : List Nat
  ulSourceBufSize : Nat
  ulSourceLen : Nat
  exports : Exports
  outpath : CStr
  outtext : List Char
  deriving DecidableEq

/-- The function `error`, called while `outfile` is open: prints
`"%s: %s%s%s\n"` on standard error, closes the streams, removes `data.c`,
frees `pu8Dest` and then `pu8Source`. The value it returns is always 1. -/
def error (pProgramName msg1 msg2 msg3 : CStr) (g : Globals) (w : World) : Option World :=
  let stderr := w.stderr ++ pProgramName ++ ": ".toList ++ msg1 ++ msg2 ++ msg3 ++ ['\n']
  let fs := fs_write w.fs g.outpath (g.outtext.map Char.toNat)
  let fs := fs_remove fs "data.c".toList
  match g.heap.free g.heap.pu8Dest with
  | none => none
  | some h1 =>
    match h1.free g.heap.pu8Source with
    | none => none
    | some _ => some { w with fs := fs, stderr := stderr }

/-- How the reading loop of one file ends: at end of file, with `realloc`
returning NULL, or with the error indicator of the stream set. -/
inductive ReadResult where
  | done (g : Globals)
  | nomem (g : Globals)
  | ioerr (g : Globals)
  deriving DecidableEq

/-- The loop `while (!feof(infile))` for a file with content `data`; `pos` is
the file offset, the first argument bounds the number of iterations (every
iteration that does not end the loop advances `pos` by `BUF_SIZE`). One
iteration: grow the buffer by `BUF_SIZE` when `ulSourceLen + BUF_SIZE`
exceeds its size; `fread` up to `BUF_SIZE` bytes to offset `ulSourceLen` of
the buffer (`none` when they would not fit); stop on a read error, or at end
of file, which `fread` reports by delivering fewer bytes than asked. A read
fault at offset `k` makes the `fread` that reaches it deliver the bytes
before `k` and set the error indicator. -/
def read_loop (data : List Nat) (fault : Option Nat) (heap_limit : Nat) :
    Nat → Nat → Globals → Option ReadResult
  | 0, _, _ => none
  | fuel + 1, pos, g =>
    let grow := decide ((g.ulSourceLen + BUF_SIZE) % ULONG_MOD > g.ulSourceBufSize)
    let size := if grow then (g.ulSourceBufSize + BUF_SIZE) % ULONG_MOD else g.ulSourceBufSize
    if grow && decide (heap_limit < size) then
      some (ReadResult.nomem { g with ulSourceBufSize := size,
                                      heap := { g.heap with pu8Source := none } })
    else
      let heap := if grow then
          { g.heap with pu8Source := some g.heap.fresh, live := some g.heap.fresh,
                        fresh := g.heap.fresh + 1 }
        else g.heap
      if g.ulSourceLen + BUF_SIZE ≤ size then
        let failing := match fault with
          | some k => decide (k < data.length ∧ k < pos + BUF_SIZE)
          | none => false
        let bytes := if failing then (data.drop pos).take (fault.getD 0 - pos)
          else (data.drop pos).take BUF_SIZE
        let g1 : Globals := { g with
          heap := heap
          ulSourceBufSize := size
          source := g.source.take g.ulSourceLen ++ bytes
            ++ g.source.drop (g.ulSourceLen + bytes.length)
          ulSourceLen := (g.ulSourceLen + bytes.length) % ULONG_MOD }
        if failing then some (ReadResult.ioerr g1)
        else if bytes.length < BUF_SIZE then some (ReadResult.done g1)
        else read_loop data fault heap_limit fuel (pos + BUF_SIZE) g1
      else none

/-- The `#else` branch of lines 356-384, the build without `USE_LIBZ`:
`ulDestLen = ulSourceLen; pu8Dest = pu8Source;`. The result is the pair of
`pu8Dest` and `ulDestLen`. -/
def dest_of_source (pu8Source : List Nat) (ulSourceLen : Nat) : List Nat × Nat :=
  (pu8Source, ulSourceLen)

/-- The loop `for (i = 0; i < argc - 3; i++)` of `main`; the first argument
counts the iterations still to run. One iteration opens `ppFilelist[i]`
(`none` for a NULL path), reads it, sets `ulDestLen = ulSourceLen` and
`pu8Dest = pu8Source`, calls `add_export` and writes the array. The failure
paths call `error` with `argv[i]` and leave the loop with 1. The result is
`ret`, the globals and the world. -/
def file_loop (argv : List CStr) (ppFilelist : List (Option CStr)) :
    Nat → Nat → Globals → World → Option (Nat × Globals × World)
  | 0, _, g, w => some (0, g, w)
  | n + 1, i, g, w =>
    match ppFilelist[i]? with
    | some (some path) =>
      let pProgramName := argv.headD []
      match w.fs.lookup path with
      | none =>
        match error pProgramName "can't open '".toList (argv.getD i [])
            "' for reading".toList g w with
        | none => none
        | some w1 => some (1, g, w1)
      | some data =>
        match read_loop data (w.read_fault.lookup path) w.heap_limit (data.length + 1) 0
            { g with ulSourceLen := 0 } with
        | none => none
        | some (ReadResult.nomem g1) =>
          match error pProgramName "memory exhausted".toList [] [] g1 w with
          | none => none
          | some w1 => some (1, g1, w1)
        | some (ReadResult.ioerr g1) =>
          match error pProgramName "error reading '".toList (argv.getD i []) "'".toList g1 w with
          | none => none
          | some w1 => some (1, g1, w1)
        | some (ReadResult.done g1) =>
          let ulDestLen := (dest_of_source g1.source g1.ulSourceLen).2
          let pu8Dest := (dest_of_source g1.source g1.ulSourceLen).1
          let heap := { g1.heap with pu8Dest := g1.heap.pu8Source }
          match add_export path g1.exports with
          | none => none
          | some (name, exports) =>
            match emit_array pu8Dest ulDestLen with
            | none => none
            | some body =>
              file_loop argv ppFilelist n (i + 1)
                { g1 with heap := heap, exports := exports,
                          outtext := g1.outtext ++ "static const unsigned char ".toList ++ name
                            ++ "[] = \x7b\n".toList ++ body } w
    | _ => none

/-- The function `main`: the exit code and the world it leaves. -/
def main (argv : List CStr) (w : World) : Option (Nat × World) :=
  match parser_args argv with
  | none => none
  | some (0, args) =>
    match args.pOutputfile with
    | none => none
    | some pOutputfile =>
      if pOutputfile ∈ w.unwritable then
        some (1, { w with stderr := w.stderr ++ argv.headD []
                            ++ ": can't open 'data.c' for writing\n".toList })
      else
        let g : Globals :=
          { heap := { pu8Source := none, pu8Dest := none, live := none, fresh := 0 }
            source := [], ulSourceBufSize := 0, ulSourceLen := 0
            exports := Exports.init, outpath := pOutputfile, outtext := [] }
        let w := { w with fs := fs_write w.fs pOutputfile [] }
        match file_loop argv args.ppFilelist (argv.length - 3) 0 g w with
        | none => none
        | some (0, g1, w1) =>
          let text := g1.outtext
            ++ "/*********************************************\n".toList
            ++ "Export:\n".toList
            ++ print_exports g1.exports
            ++ "**********************************************/\n".toList
          match g1.heap.free g1.heap.pu8Source with
          | none => none
          | some _ => some (0, { w1 with fs := fs_write w1.fs g1.outpath (text.map Char.toNat) })
        | some (ret, _, w1) => some (ret, w1)
  | some (_, _) => some (1, w)

/-- A world with an empty disk, no read failure, no unwritable path and
4 GiB of memory. -/
def World.empty : World :=
  { fs := [], read_fault := [], unwritable := [], heap_limit := 2 ^ 32, stderr := [] }

/-! ## The identifier as the specification words it -/

/-- The part of the filename that `begin` points to: from the last `/` on, or
the whole filename when it has no `/`. -/
def begin_of (filename : CStr) : CStr :=
  match strrchr filename '/' with
  | some p => p
  | none => filename

/-- The base name with every character that is not alphanumeric replaced by
an underscore. -/
def spec_sanitize (b : CStr) : CStr :=
  b.map (fun c => if isalnum c then c else '_')

/-- The suffix for the text assembled so far: `data` when it ends in an
underscore, `_data` otherwise. -/
def spec_suffix (assembled : CStr) : CStr :=
  if assembled.getLast? = some '_' then "data".toList else "_data".toList

/-- The identifier for a base `b` and an extension `e`: underscore,
extension, underscore, sanitized base, suffix. -/
def spec_identifier_ext (b e : CStr) : CStr :=
  ('_' :: e ++ '_' :: spec_sanitize b) ++ spec_suffix ('_' :: e ++ '_' :: spec_sanitize b)

/-- The identifier for a name without extension: underscore, sanitized name,
suffix. -/
def spec_identifier_plain (b : CStr) : CStr :=
  ('_' :: spec_sanitize b) ++ spec_suffix ('_' :: spec_sanitize b)

/-! ## The source buffer across the run: lines 334-347 -/

/-- The logical length and the capacity of the source buffer. -/
structure SourceBuf where
  ulSourceLen : Nat
  ulSourceBufSize : Nat
  deriving DecidableEq

/-- The growth step of lines 337-345: when `ulSourceLen + BUF_SIZE` exceeds
the capacity, the capacity grows by `BUF_SIZE`; `none` when `realloc` does
not grant the new size, after which the run ends through `error`. -/
def grow_source (heap_limit : Nat) (s : SourceBuf) : Option SourceBuf :=
  if (s.ulSourceLen + BUF_SIZE) % ULONG_MOD > s.ulSourceBufSize then
    if heap_limit < (s.ulSourceBufSize + BUF_SIZE) % ULONG_MOD then none
    else some { s with ulSourceBufSize := (s.ulSourceBufSize + BUF_SIZE) % ULONG_MOD }
  else some s

/-- What happens to the source buffer during the run: a file is opened
(line 334, `ulSourceLen = 0`), or one iteration of the reading loop runs
whose `fread` returns `n` bytes. -/
inductive ReadEvent where
  | open_file : ReadEvent
  | chunk (n : Nat) : ReadEvent
  deriving DecidableEq

/-- The number of bytes the `fread` of an event returns (none when a file
is opened). -/
def ReadEvent.bytes : ReadEvent → Nat
  | ReadEvent.open_file => 0
  | ReadEvent.chunk n => n

/-- One event: `ulSourceLen = 0`, or the growth step followed by
`ulSourceLen += fread(...)`. -/
def source_step (heap_limit : Nat) (s : SourceBuf) : ReadEvent → Option SourceBuf
  | ReadEvent.open_file => some { s with ulSourceLen := 0 }
  | ReadEvent.chunk n =>
    (grow_source heap_limit s).map
      (fun s1 => { s1 with ulSourceLen := (s1.ulSourceLen + n) % ULONG_MOD })

/-- The events of a run, in order; `none` once `realloc` has failed. -/
def source_run (heap_limit : Nat) : List ReadEvent → SourceBuf → Option SourceBuf
  | [], s => some s
  | e :: es, s => (source_step heap_limit s e).bind (source_run heap_limit es)

/-- The source buffer among the global variables. -/
def Globals.buf (g : Globals) : SourceBuf :=
  { ulSourceLen := g.ulSourceLen, ulSourceBufSize := g.ulSourceBufSize }

/-- The source buffer at the end of the reading loop of a file; `none` when the
loop ended with `realloc` returning NULL. -/
def ReadResult.buf : ReadResult → Option SourceBuf
  | ReadResult.done g => some g.buf
  | ReadResult.ioerr g => some g.buf
  | ReadResult.nomem _ => none

/-! ## The destination buffer of the compressing build: lines 359-371 -/

/-- The destination size of line 359,
`ulSourceBufSize + (ulSourceBufSize + 9) / 10 + 12` in `unsigned long`. -/
def dest_size (ulSourceBufSize : Nat) : Nat :=
  (ulSourceBufSize + (ulSourceBufSize + 9) % ULONG_MOD / 10 + 12) % ULONG_MOD

/-- Lines 359-371 of the `USE_LIBZ` branch. The capacity of the destination
buffer, which the branch calls `pu8DestBufSize` (the variable declared is
`ulDestBufSize`), is a parameter. The result is the capacity after the step
and the value of `ulDestLen` handed to `my_compress2`; `none` when `realloc`
does not grant the size. -/
def dest_alloc (heap_limit ulSourceBufSize pu8DestBufSize : Nat) : Option (Nat × Nat) :=
  let ulDestLen := dest_size ulSourceBufSize
  if pu8DestBufSize < ulDestLen then
    if heap_limit < ulDestLen then none else some (ulDestLen, ulDestLen)
  else some (pu8DestBufSize, pu8DestBufSize)

/-! ## Theorems -/

/-! ### Identifier synthesis -/

/-- C1 (at the failing input `a.c++`): the extension is copied into the
identifier unchanged, so the identifier is `_c++_a_data`, whose character
`+` is neither a letter, a digit nor an underscore. -/
theorem add_export_name_keeps_extension_chars :
    add_export_name "a.c++".toList = "_c++_a_data".toList ∧
    ¬ (∀ c ∈ add_export_name "a.c++".toList, is_ident_char c = true) := by
  decide

/-- C2 (at the failing input `[a.png, b.txt]`): both records point to the one
static buffer, so the manifest prints the identifier of `b.txt` twice and the
identifier of `a.png`, which is `_png_a_data`, not at all. -/
theorem manifest_repeats_last_identifier :
    add_export_name "a.png".toList = "_png_a_data".toList ∧
    add_export_name "b.txt".toList = "_txt_b_data".toList ∧
    (add_exports ["a.png".toList, "b.txt".toList] Exports.init).map print_exports
      = some "\t_txt_b_data\n\t_txt_b_data\n".toList := by
  decide

/-- C10 (at the failing input `dir/a.png`): `begin` points at the last `/`
itself, which the base-name loop turns into an underscore, so the identifier
is `_png__a_data` and not the `_png_a_data` obtained for `a.png`. -/
theorem add_export_name_keeps_slash :
    add_export_name "dir/a.png".toList = "_png__a_data".toList ∧
    add_export_name "a.png".toList = "_png_a_data".toList ∧
    add_export_name "dir/a.png".toList ≠ add_export_name "a.png".toList := by
  decide

/-! ### Array emission -/

theorem fmt_02x_byte (v : Nat) (h : v < 256) :
    fmt_02x v = [hex_digit (v / 16), hex_digit (v % 16)] := by
  interval_cases v <;> rfl

/-- The literal the code writes for a byte is the literal of the
specification. -/
theorem literal_eq (b : Nat) : "0x".toList ++ fmt_02x (b &&& 0xff) = spec_literal b := by
  have h : b &&& 0xff = b % 256 := Nat.and_pow_two_sub_one_eq_mod b 8
  have h2 : b % 256 < 256 := Nat.mod_lt _ (by norm_num)
  have h3 : b % 256 % 16 = b % 16 := by omega
  rw [h, fmt_02x_byte _ h2, h3]
  rfl

/-- The loop over indices inside the buffer appends the items of the bytes
it passes. -/
theorem emit_loop_eq (buf : List Nat) : ∀ (m j : Nat) (out : List Char), j + m ≤ buf.length →
    emit_loop buf m j out = some (out ++ render_items j ((buf.drop j).take m)) := by
  intro m
  induction m with
  | zero => intro j out _; simp [emit_loop, render_items]
  | succ m ih =>
    intro j out h
    have hj : j < buf.length := by omega
    rw [emit_loop, List.getElem?_eq_getElem hj]
    simp only
    rw [ih (j + 1) _ (by omega), List.drop_eq_getElem_cons hj]
    simp [render_items, List.take_succ_cons]

/-- A loop of `m + 1` iterations from `j` that ends has read inside the
buffer only. -/
theorem emit_loop_some_bound (buf : List Nat) : ∀ (m j : Nat) (out r : List Char),
    emit_loop buf (m + 1) j out = some r → j + m < buf.length := by
  intro m
  induction m with
  | zero =>
    intro j out r h
    rw [emit_loop] at h
    cases hb : buf[j]? with
    | none => simp [hb] at h
    | some b =>
      have := List.getElem?_eq_some_iff.mp hb
      obtain ⟨hj, _⟩ := this
      simpa using hj
  | succ m ih =>
    intro j out r h
    rw [emit_loop] at h
    cases hb : buf[j]? with
    | none => simp [hb] at h
    | some b =>
      simp only [hb] at h
      have := ih _ _ _ h
      omega

/-- The items of the loop followed by the last byte are the rendering of the
whole. -/
theorem render_items_last (b : Nat) : ∀ (xs : List Nat) (j : Nat),
    render_items j xs ++ emit_last (j + xs.length) b = render_all j (xs ++ [b]) := by
  intro xs
  induction xs with
  | nil => intro j; simp [render_items, render_all]
  | cons x xs ih =>
    intro j
    cases xs with
    | nil => simp [render_items, render_all]
    | cons y ys =>
      have h := ih (j + 1)
      have e : j + 1 + (y :: ys).length = j + (x :: y :: ys).length := by
        simp only [List.length_cons]; omega
      rw [e] at h
      show emit_item j x ++ render_items (j + 1) (y :: ys) ++ _
        = emit_item j x ++ render_all (j + 1) ((y :: ys) ++ [b])
      rw [← h, List.append_assoc]

/-- For a length from 1 to `2 ^ 64 - 1` the `unsigned long` value of
`ulDestLen - 1` is the predecessor. -/
theorem ulong_pred (n : Nat) (h1 : 1 ≤ n) (h3 : n < 2 ^ 64) :
    (n + ULONG_MOD - 1) % ULONG_MOD = n - 1 := by
  have e : n + ULONG_MOD - 1 = (n - 1) + ULONG_MOD := by
    have : 0 < ULONG_MOD := by unfold ULONG_MOD; positivity
    omega
  rw [e, Nat.add_mod_right, Nat.mod_eq_of_lt]
  unfold ULONG_MOD; omega


/-- The emission up to an index inside the buffer renders the bytes up to
that index. -/
theorem emit_upto_eq (buf : List Nat) (last : Nat) (hlt : last < buf.length) :
    emit_upto buf last = some (render_all 0 (buf.take (last + 1))) := by
  have h := render_items_last (buf[last]) (buf.take last) 0
  simp only [Nat.zero_add, List.length_take, Nat.min_eq_left (Nat.le_of_lt hlt)] at h
  have e : buf.take (last + 1) = buf.take last ++ [buf[last]] := by
    rw [List.take_succ, List.getElem?_eq_getElem hlt]
    simp
  have hloop := emit_loop_eq buf last 0 [] (by omega)
  simp only [List.drop_zero, List.nil_append] at hloop
  rw [emit_upto, hloop, List.getElem?_eq_getElem hlt]
  simp only
  rw [h, e]

/-- An emission that ends has its last index inside the buffer. -/
theorem emit_upto_some_bound (buf : List Nat) (last : Nat) (r : List Char)
    (h : emit_upto buf last = some r) : last < buf.length := by
  rw [emit_upto] at h
  cases hb : buf[last]? with
  | none =>
    rw [hb] at h
    cases hl : emit_loop buf last 0 [] <;> simp [hl] at h
  | some b => exact (List.getElem?_eq_some_iff.mp hb).1

/-- The array body for a length from 1 to the size of the buffer. -/
theorem emit_array_eq (buf : List Nat) (n : Nat) (h1 : 1 ≤ n) (h2 : n ≤ buf.length)
    (h3 : n < 2 ^ 64) : emit_array buf n = some (render_all 0 (buf.take n)) := by
  rw [emit_array, ulong_pred n h1 h3, emit_upto_eq buf (n - 1) (by omega)]
  have : n - 1 + 1 = n := by omega
  rw [this]

/-- Joining at least two pieces: the first, the separator, the rest joined. -/
theorem intercalate_cons_cons (sep x y : List Char) (l : List (List Char)) :
    sep.intercalate (x :: y :: l) = x ++ sep ++ sep.intercalate (y :: l) := by
  simp [List.intercalate, List.intersperse]

/-- Joining one piece gives the piece. -/
theorem intercalate_single (sep x : List Char) : sep.intercalate [x] = x := by
  simp [List.intercalate, List.intersperse]

/-- The item at column `k` below 7 of a line. -/
theorem emit_item_mid (q k b : Nat) (hk : k < 7) :
    emit_item (8 * q + k) b
      = (if k = 0 then "  ".toList else []) ++ spec_literal b ++ ", ".toList := by
  have hm : (8 * q + k) % 8 = k := by omega
  rw [← literal_eq]
  unfold emit_item
  rw [hm]
  by_cases h0 : k = 0
  · simp [h0]
  · have h7 : k ≠ 7 := by omega
    simp [h0, h7]

/-- The item at the last column of a line. -/
theorem emit_item_eol (q b : Nat) :
    emit_item (8 * q + 7) b = spec_literal b ++ ",\n".toList := by
  have hm : (8 * q + 7) % 8 = 7 := by omega
  rw [← literal_eq]
  unfold emit_item
  rw [hm]
  simp

/-- The last byte of the array at column `k`. -/
theorem emit_last_at (q k b : Nat) (hk : k < 8) :
    emit_last (8 * q + k) b
      = (if k = 0 then "  ".toList else []) ++ spec_literal b ++ "\n\x7d;\n\n".toList := by
  have hm : (8 * q + k) % 8 = k := by omega
  rw [← literal_eq]
  unfold emit_last
  rw [hm]
  by_cases h0 : k = 0
  · simp [h0]
  · simp [h0]

/-- The last line: at most eight bytes, the first at column `k`. -/
theorem render_all_last_line (q : Nat) : ∀ (bs : List Nat) (k : Nat), bs ≠ [] →
    k + bs.length ≤ 8 →
    render_all (8 * q + k) bs
      = (if k = 0 then "  ".toList else []) ++ ", ".toList.intercalate (bs.map spec_literal)
          ++ "\n\x7d;\n\n".toList := by
  intro bs
  induction bs with
  | nil => intro k h; exact absurd rfl h
  | cons b bs ih =>
    intro k _ hlen
    cases bs with
    | nil =>
      simp only [List.length_cons, List.length_nil] at hlen
      rw [render_all, emit_last_at q k b (by omega)]
      simp [intercalate_single]
    | cons b1 bs =>
      simp only [List.length_cons] at hlen
      have hrec := ih (k + 1) (by simp) (by simp only [List.length_cons]; omega)
      rw [render_all, emit_item_mid q k b (by omega), Nat.add_assoc, hrec]
      simp only [List.map_cons, intercalate_cons_cons]
      simp

/-- A full line of eight bytes that is followed by more bytes. -/
theorem render_all_full_line (q : Nat) (rest : List Nat) (hrest : rest ≠ []) :
    ∀ (bs : List Nat) (k : Nat), bs ≠ [] → k + bs.length = 8 →
    render_all (8 * q + k) (bs ++ rest)
      = (if k = 0 then "  ".toList else []) ++ ", ".toList.intercalate (bs.map spec_literal)
          ++ ",\n".toList ++ render_all (8 * (q + 1)) rest := by
  intro bs
  induction bs with
  | nil => intro k h; exact absurd rfl h
  | cons b bs ih =>
    intro k _ hlen
    cases bs with
    | nil =>
      simp only [List.length_cons, List.length_nil] at hlen
      have hk : k = 7 := by omega
      subst hk
      obtain ⟨r, rs, rfl⟩ := List.exists_cons_of_ne_nil hrest
      have e : 8 * q + 7 + 1 = 8 * (q + 1) := by omega
      show render_all (8 * q + 7) (b :: r :: rs) = _
      rw [render_all, emit_item_eol, e]
      simp [intercalate_single]
    | cons b1 bs =>
      simp only [List.length_cons] at hlen
      have hrec := ih (k + 1) (by simp) (by simp only [List.length_cons]; omega)
      show render_all (8 * q + k) (b :: (b1 :: bs ++ rest)) = _
      have hc : b1 :: bs ++ rest = b1 :: (bs ++ rest) := rfl
      rw [hc, render_all, emit_item_mid q k b (by omega), Nat.add_assoc, ← hc, hrec]
      simp only [List.map_cons, intercalate_cons_cons]
      simp

/-- The array body of one line. -/
theorem spec_array_body_single (bs : List Nat) :
    spec_array_body [bs] = spec_line bs ++ "\n\x7d;\n\n".toList := by
  simp [spec_array_body, intercalate_single]

/-- The array body of a line followed by further lines. -/
theorem spec_array_body_cons (l l1 : List Nat) (ls : List (List Nat)) :
    spec_array_body (l :: l1 :: ls) = spec_line l ++ ",\n".toList ++ spec_array_body (l1 :: ls) := by
  simp [spec_array_body, intercalate_cons_cons]

/-- The rendering of a non-empty list of bytes that starts at the head of a
line is the array body of its lines of eight. -/
theorem render_all_layout : ∀ (n : Nat) (bs : List Nat) (q : Nat), bs.length = n → bs ≠ [] →
    ∃ lines : List (List Nat), lines.flatten = bs ∧ lines ≠ [] ∧
      (∀ l ∈ lines.dropLast, l.length = 8) ∧
      (∀ l ∈ lines.getLast?, 1 ≤ l.length ∧ l.length ≤ 8) ∧
      render_all (8 * q) bs = spec_array_body lines := by
  intro n
  induction n using Nat.strong_induction_on with
  | _ n ih =>
    intro bs q hn hne
    have hpos : 1 ≤ bs.length := List.length_pos.mpr hne
    by_cases h8 : bs.length ≤ 8
    · refine ⟨[bs], by simp, by simp, by simp, ?_, ?_⟩
      · intro l hl
        simp only [List.getLast?_singleton, Option.mem_def, Option.some.injEq] at hl
        subst hl
        exact ⟨hpos, h8⟩
      · have h := render_all_last_line q bs 0 hne (by omega)
        simp only [Nat.add_zero, if_true] at h
        rw [h, spec_array_body_single, spec_line]
    · have hrest : bs.drop 8 ≠ [] := by
        intro h
        have := congrArg List.length h
        simp only [List.length_drop, List.length_nil] at this
        omega
      have htake : bs.take 8 ≠ [] := by
        intro h
        have := congrArg List.length h
        simp only [List.length_take, List.length_nil] at this
        omega
      have hlen8 : (bs.take 8).length = 8 := by
        simp only [List.length_take]; omega
      obtain ⟨lines, hflat, hlne, hfull, hlast, hrender⟩ :=
        ih (bs.drop 8).length (by simp only [List.length_drop]; omega) (bs.drop 8) (q + 1) rfl hrest
      obtain ⟨l1, ls, rfl⟩ := List.exists_cons_of_ne_nil hlne
      refine ⟨bs.take 8 :: l1 :: ls, ?_, by simp, ?_, ?_, ?_⟩
      · rw [List.flatten_cons, hflat, List.take_append_drop]
      · intro l hl
        rw [List.dropLast_cons₂, List.mem_cons] at hl
        rcases hl with rfl | hl
        · exact hlen8
        · exact hfull l hl
      · intro l hl
        rw [List.getLast?_cons_cons] at hl
        exact hlast l hl
      · have h := render_all_full_line q (bs.drop 8) hrest (bs.take 8) 0 htake (by omega)
        simp only [Nat.add_zero, if_true, List.take_append_drop] at h
        rw [h, hrender, spec_array_body_cons, spec_line]

/-- Reading a hexadecimal digit gives its value back. -/
theorem hexval_hex_digit (d : Nat) (h : d < 16) : hexval (hex_digit d) = d := by
  interval_cases d <;> rfl

/-- Reading a literal gives the byte value, then what the rest reads as. -/
theorem read_literals_literal (b : Nat) (rest : List Char) :
    read_literals (spec_literal b ++ rest) = b % 256 :: read_literals rest := by
  have h1 : b % 256 / 16 < 16 := by omega
  have h2 : b % 16 < 16 := by omega
  simp only [spec_literal, List.cons_append, List.nil_append, read_literals,
    hexval_hex_digit _ h1, hexval_hex_digit _ h2]
  congr 1
  omega

/-- Reading an item of the loop gives the byte value, then what the rest
reads as. -/
theorem read_literals_emit_item (j b : Nat) (rest : List Char) :
    read_literals (emit_item j b ++ rest) = b % 256 :: read_literals rest := by
  have e := literal_eq b
  unfold emit_item
  split_ifs
  · show read_literals (' ' :: ' ' :: ("0x".toList ++ fmt_02x (b &&& 0xff)) ++ ", ".toList ++ rest) = _
    rw [e]
    simp only [List.cons_append, List.append_assoc]
    rw [show read_literals (' ' :: ' ' :: (spec_literal b ++ (", ".toList ++ rest)))
        = read_literals (spec_literal b ++ (", ".toList ++ rest)) from rfl, read_literals_literal]
    rfl
  · show read_literals (("0x".toList ++ fmt_02x (b &&& 0xff)) ++ ",\n".toList ++ rest) = _
    rw [e, List.append_assoc, read_literals_literal]
    rfl
  · show read_literals (("0x".toList ++ fmt_02x (b &&& 0xff)) ++ ", ".toList ++ rest) = _
    rw [e, List.append_assoc, read_literals_literal]
    rfl

/-- Reading the text of the last byte gives the byte value. -/
theorem read_literals_emit_last (j b : Nat) :
    read_literals (emit_last j b) = [b % 256] := by
  have e := literal_eq b
  unfold emit_last
  split_ifs
  · show read_literals (' ' :: ' ' :: ("0x".toList ++ fmt_02x (b &&& 0xff)) ++ "\n\x7d;\n\n".toList) = _
    rw [e]
    simp only [List.cons_append]
    rw [show read_literals (' ' :: ' ' :: (spec_literal b ++ "\n\x7d;\n\n".toList))
        = read_literals (spec_literal b ++ "\n\x7d;\n\n".toList) from rfl, read_literals_literal]
    rfl
  · show read_literals (("0x".toList ++ fmt_02x (b &&& 0xff)) ++ "\n\x7d;\n\n".toList) = _
    rw [e, read_literals_literal]
    rfl

/-- Reading the rendering of a list of bytes gives their values in order. -/
theorem read_literals_render_all : ∀ (bs : List Nat) (j : Nat),
    read_literals (render_all j bs) = bs.map (fun b => b % 256) := by
  intro bs
  induction bs with
  | nil => intro j; rfl
  | cons b bs ih =>
    intro j
    cases bs with
    | nil => simp [render_all, read_literals_emit_last]
    | cons b1 bs =>
      rw [render_all, read_literals_emit_item, ih (j + 1)]
      rfl

/-- The array body of a buffer that holds `content` on its logical length. -/
theorem emit_array_content (content stale : List Nat) (hne : content ≠ [])
    (hlen : content.length < 2 ^ 64) :
    emit_array (content ++ stale) content.length = some (render_all 0 content) := by
  have hpos : 1 ≤ content.length := List.length_pos.mpr hne
  rw [emit_array_eq (content ++ stale) content.length hpos (by simp) hlen]
  simp

/-- C3 (the zero-byte input, `ulDestLen = 0`): the bound `ulDestLen - 1` of
the loop is `2 ^ 64 - 1`, so for every buffer that fits the address space the
emission reads `pu8Dest[j]` outside the buffer and never comes to write the
terminator. -/
theorem emit_array_zero_length_out_of_bounds (pu8Dest : List Nat)
    (h : pu8Dest.length < 2 ^ 64 - 1) : emit_array pu8Dest 0 = none := by
  have e : (0 + ULONG_MOD - 1) % ULONG_MOD = 2 ^ 64 - 1 := by decide
  rw [emit_array, e]
  cases hr : emit_upto pu8Dest (2 ^ 64 - 1) with
  | none => rfl
  | some r =>
    have := emit_upto_some_bound pu8Dest _ r hr
    omega

/-- Witness of `emit_array_zero_length_out_of_bounds`: the buffer of a first
file that is empty. -/
theorem emit_array_zero_length_out_of_bounds_witness :
    ([] : List Nat).length < 2 ^ 64 - 1 ∧ emit_array [] 0 = none :=
  ⟨by decide, emit_array_zero_length_out_of_bounds [] (by decide)⟩

/-- C8: for a buffer that holds the non-empty `content` on its logical
length, the array body is the text of lines that together list the bytes of
`content` in order, eight on every line but the last and one to eight on the
last, every line being two spaces followed by its literals (`0x` and two
lowercase hexadecimal digits) separated by `, `, the lines separated by a
comma and a line break, and the last literal followed by a line break and
the terminator. -/
theorem emit_array_layout (content stale : List Nat) (hne : content ≠ [])
    (hlen : content.length < 2 ^ 64) :
    ∃ lines : List (List Nat), lines.flatten = content ∧ lines ≠ [] ∧
      (∀ l ∈ lines.dropLast, l.length = 8) ∧
      (∀ l ∈ lines.getLast?, 1 ≤ l.length ∧ l.length ≤ 8) ∧
      emit_array (content ++ stale) content.length = some (spec_array_body lines) := by
  obtain ⟨lines, h1, h2, h3, h4, h5⟩ := render_all_layout content.length content 0 rfl hne
  refine ⟨lines, h1, h2, h3, h4, ?_⟩
  rw [emit_array_content content stale hne hlen, ← h5]

/-- Witness of `emit_array_layout`: nine bytes in a buffer with two stale
bytes behind them. -/
theorem emit_array_layout_witness :
    [1, 2, 3, 4, 5, 6, 7, 8, 255] ≠ ([] : List Nat) ∧
    [1, 2, 3, 4, 5, 6, 7, 8, 255].length < 2 ^ 64 ∧
    ∃ lines : List (List Nat), lines.flatten = [1, 2, 3, 4, 5, 6, 7, 8, 255] ∧ lines ≠ [] ∧
      (∀ l ∈ lines.dropLast, l.length = 8) ∧
      (∀ l ∈ lines.getLast?, 1 ≤ l.length ∧ l.length ≤ 8) ∧
      emit_array ([1, 2, 3, 4, 5, 6, 7, 8, 255] ++ [9, 9]) [1, 2, 3, 4, 5, 6, 7, 8, 255].length
        = some (spec_array_body lines) :=
  ⟨by decide, by decide,
    emit_array_layout [1, 2, 3, 4, 5, 6, 7, 8, 255] [9, 9] (by decide) (by decide)⟩

/-- C9: in the build without compression the emitted buffer is the source
buffer and the emitted length is the source length; for a source buffer that
holds the non-empty file content on its logical length, the literals of the
emitted array read back as bytes are the file content, byte for byte. -/
theorem emit_array_round_trip (content stale : List Nat) (hne : content ≠ [])
    (hlen : content.length < 2 ^ 64) (hbytes : ∀ b ∈ content, b < 256) :
    dest_of_source (content ++ stale) content.length = (content ++ stale, content.length) ∧
    ∃ body, emit_array (dest_of_source (content ++ stale) content.length).1
        (dest_of_source (content ++ stale) content.length).2 = some body ∧
      read_literals body = content ∧ (read_literals body).length = content.length := by
  have hmap : content.map (fun b => b % 256) = content := by
    conv_rhs => rw [← List.map_id content]
    apply List.map_congr_left
    intro b hb
    exact Nat.mod_eq_of_lt (hbytes b hb)
  refine ⟨rfl, _, emit_array_content content stale hne hlen, ?_, ?_⟩
  · rw [read_literals_render_all, hmap]
  · rw [read_literals_render_all, hmap]

/-- Witness of `emit_array_round_trip`: three bytes. -/
theorem emit_array_round_trip_witness :
    [0, 171, 255] ≠ ([] : List Nat) ∧ [0, 171, 255].length < 2 ^ 64 ∧
    (∀ b ∈ [0, 171, 255], b < 256) ∧
    dest_of_source ([0, 171, 255] ++ []) [0, 171, 255].length
      = ([0, 171, 255] ++ [], [0, 171, 255].length) ∧
    ∃ body, emit_array (dest_of_source ([0, 171, 255] ++ []) [0, 171, 255].length).1
        (dest_of_source ([0, 171, 255] ++ []) [0, 171, 255].length).2 = some body ∧
      read_literals body = [0, 171, 255] ∧ (read_literals body).length = [0, 171, 255].length :=
  ⟨by decide, by decide, by decide,
    emit_array_round_trip [0, 171, 255] [] (by decide) (by decide) (by decide)⟩

/-- For a non-empty content the number of literals in the array body is the
length of the content. -/
theorem emit_array_literal_count (content stale : List Nat) (hne : content ≠ [])
    (hlen : content.length < 2 ^ 64) :
    ∃ body, emit_array (content ++ stale) content.length = some body ∧
      (read_literals body).length = content.length := by
  refine ⟨_, emit_array_content content stale hne hlen, ?_⟩
  rw [read_literals_render_all, List.length_map]

/-! ### Command line -/

theorem parse_loop_success : ∀ (n : Nat) (rest : List CStr) (st st1 : Args), rest.length ≤ n →
    parse_loop rest st = some (0, st1) →
    st.list_idx ≤ st.ppFilelist.length →
    (st1.pOutputfile = st.pOutputfile ∧ st1.list_idx = st.list_idx + rest.length ∧
      st1.ppFilelist.length = st.ppFilelist.length ∧ st1.list_idx ≤ st1.ppFilelist.length) ∨
    (∃ pre flag path post, rest = pre ++ flag :: path :: post ∧ is_flag flag 'o' = true ∧
      st1.pOutputfile = some path) := by
  intro n
  induction n with
  | zero =>
    intro rest st st1 hn h hidx
    have : rest = [] := List.length_eq_zero.mp (Nat.le_zero.mp hn)
    subst this
    simp only [parse_loop, Option.some.injEq, Prod.mk.injEq, true_and] at h
    subst h
    left; simp [hidx]
  | succ n ih =>
    intro rest st st1 hn h hidx
    cases rest with
    | nil =>
      simp only [parse_loop, Option.some.injEq, Prod.mk.injEq, true_and] at h
      subst h
      left; simp [hidx]
    | cons arg rest =>
      rw [parse_loop.eq_def] at h
      simp only at h
      by_cases ho : is_flag arg 'o' = true
      · simp only [ho, if_true] at h
        cases rest with
        | nil => simp at h
        | cons path rest1 =>
          simp only at h
          have hlen : rest1.length ≤ n := by
            simp only [List.length_cons] at hn; omega
          rcases ih rest1 _ st1 hlen h hidx with ⟨hp, _, _, _⟩ | ⟨pre, flag, p, post, hr, hf, hp⟩
          · right
            exact ⟨[], arg, path, rest1, rfl, ho, hp⟩
          · right
            refine ⟨arg :: path :: pre, flag, p, post, ?_, hf, hp⟩
            rw [hr]; rfl
      · simp only [ho, Bool.false_eq_true, if_false] at h
        by_cases hh : (is_flag arg 'h' || is_flag arg '?') = true
        · simp [hh] at h
        · simp only [hh, Bool.false_eq_true, if_false] at h
          by_cases hs : st.list_idx < st.ppFilelist.length
          · simp only [hs, if_true] at h
            have hlen : rest.length ≤ n := by
              simp only [List.length_cons] at hn; omega
            rcases ih rest _ st1 hlen h (by simp only [List.length_set]; omega)
              with ⟨hp, hi, hl, hb⟩ | ⟨pre, flag, p, post, hr, hf, hp⟩
            · left
              simp only [List.length_set] at hl
              simp only [List.length_cons]
              simp only at hi hp
              exact ⟨hp, by omega, hl, hb⟩
            · right
              refine ⟨arg :: pre, flag, p, post, ?_, hf, hp⟩
              rw [hr]; rfl
          · simp [hs] at h

/-- What the test `argc < 4` gives: when `argc < 4`, `parser_args` returns 1
and `main` returns 1 with the world as it was (no file opened, nothing
printed on standard error); and a return of 0 that stored nothing outside
`ppFilelist` has `argc >= 4` and took the output path from the token that
follows a token `-o...` of the command line. -/
theorem parser_args_checks (argv : List CStr) :
    (argv.length < 4 →
      (∃ st, parser_args argv = some (1, st)) ∧ ∀ w, main argv w = some (1, w)) ∧
    (∀ st, parser_args argv = some (0, st) →
      4 ≤ argv.length ∧
      ∃ pre flag path post, argv = pre ++ flag :: path :: post ∧ pre ≠ [] ∧
        is_flag flag 'o' = true ∧ st.pOutputfile = some path) := by
  constructor
  · intro h
    have hp : parser_args argv
        = some (1, { pOutputfile := none, ppFilelist := [], list_idx := 0 }) := by
      simp [parser_args, h]
    refine ⟨⟨_, hp⟩, ?_⟩
    intro w
    simp only [main, hp]
  · intro st h
    unfold parser_args at h
    by_cases h4 : argv.length < 4
    · simp [h4] at h
    · simp only [h4, if_false] at h
      refine ⟨by omega, ?_⟩
      rcases parse_loop_success _ _ _ st (Nat.le_refl _) h (by simp)
        with ⟨_, hi, hl, hb⟩ | ⟨pre, flag, p, post, hr, hf, hp⟩
      · exfalso
        simp only [List.length_drop, List.length_replicate] at hi hl
        omega
      · cases argv with
        | nil => simp at h4
        | cons a0 tl =>
          simp only [List.drop_succ_cons, List.drop_zero] at hr
          exact ⟨a0 :: pre, flag, p, post, by rw [hr]; rfl, by simp, hf, hp⟩

/-- Witness of `parser_args_checks`: `bin2c -o out.c` and
`bin2c -o out.c a.png`. -/
theorem parser_args_checks_witness :
    ((∃ st, parser_args ["bin2c".toList, "-o".toList, "out.c".toList] = some (1, st)) ∧
      ∀ w, main ["bin2c".toList, "-o".toList, "out.c".toList] w = some (1, w)) ∧
    (4 ≤ ["bin2c".toList, "-o".toList, "out.c".toList, "a.png".toList].length ∧
      ∃ pre flag path post,
        ["bin2c".toList, "-o".toList, "out.c".toList, "a.png".toList]
          = pre ++ flag :: path :: post ∧ pre ≠ [] ∧ is_flag flag 'o' = true ∧
        (Args.mk (some "out.c".toList) [some "a.png".toList] 1).pOutputfile = some path) :=
  ⟨(parser_args_checks ["bin2c".toList, "-o".toList, "out.c".toList]).1 (by decide),
    (parser_args_checks ["bin2c".toList, "-o".toList, "out.c".toList, "a.png".toList]).2
      (Args.mk (some "out.c".toList) [some "a.png".toList] 1) (by decide)⟩

/-- C4 (at the failing input `bin2c -o x -o y`): `parser_args` returns 0,
the output path is `y` and no input file is stored (`list_idx` is 0, both
slots are NULL), where the usage text asks for at least one input file and
the claim has the function return 1. -/
theorem parser_args_accepts_no_input :
    parser_args ["bin2c".toList, "-o".toList, "x".toList, "-o".toList, "y".toList]
      = some (0, { pOutputfile := some "y".toList, ppFilelist := [none, none], list_idx := 0 }) := by
  decide

/-! ### The run -/

/-- C5 (at the failing input `bin2c -o out.c missing.bin` on an empty disk):
the run returns 1 and the file `out.c` that `fopen` created is still on disk,
empty: `error` removes `data.c`, not the output path. -/
theorem main_failure_leaves_output_file :
    (main ["bin2c".toList, "-o".toList, "out.c".toList, "missing.bin".toList] World.empty).map
        (fun r => (r.1, r.2.fs.lookup "out.c".toList))
      = some (1, some []) := by
  decide

/-- C6 (at the failing input `bin2c -o out.c missing.bin` on an empty disk):
the message names `argv[0]`, the program, where the file that could not be
opened is `ppFilelist[0]`, `missing.bin`. -/
theorem main_open_error_names_argv :
    (parser_args ["bin2c".toList, "-o".toList, "out.c".toList, "missing.bin".toList]).map
        (fun r => r.2.ppFilelist) = some [some "missing.bin".toList] ∧
    (main ["bin2c".toList, "-o".toList, "out.c".toList, "missing.bin".toList] World.empty).map
        (fun r => r.2.stderr)
      = some "bin2c: can't open 'bin2c' for reading\n".toList := by
  decide

/-- C7 (at the failing input, an empty file, `ulDestLen = 0`): the loop
bound `ulDestLen - 1` is `2 ^ 64 - 1`, the first iteration writes a literal
for `pu8Dest[0]` whatever byte the buffer holds there, and the run on an
empty file has no defined result. -/
theorem emit_loop_zero_length_writes_literal (b : Nat) (rest : List Nat) :
    (0 + ULONG_MOD - 1) % ULONG_MOD = 18446744073709551615 ∧
    emit_loop (b :: rest) 18446744073709551615 0 []
      = emit_loop (b :: rest) 18446744073709551614 1 (emit_item 0 b) ∧
    read_literals (emit_item 0 b) = [b % 256] ∧
    main ["bin2c".toList, "-o".toList, "out.c".toList, "empty.bin".toList]
      { World.empty with fs := [("empty.bin".toList, [])] } = none := by
  refine ⟨by decide, ?_, ?_, by decide⟩
  · rw [show (18446744073709551615 : Nat) = 18446744073709551614 + 1 from rfl, emit_loop]
    simp
  · have h := read_literals_emit_item 0 b []
    simpa [read_literals] using h

set_option maxRecDepth 1000000 in
/-- A run that succeeds: one file of three bytes gives exit code 0 and the
output file with the array and the manifest. -/
theorem main_single_file_run :
    (main ["bin2c".toList, "-o".toList, "out.c".toList, "a.bin".toList]
      { World.empty with fs := [("a.bin".toList, [1, 2, 255])] }).map
        (fun r => (r.1, r.2.fs.lookup "out.c".toList))
     = some (0, some ("static const unsigned char _bin_a_data[] = \x7b\n  0x01, 0x02, 0xff\n\x7d;\n\n/*********************************************\nExport:\n\t_bin_a_data\n**********************************************/\n".toList.map Char.toNat)) := by
  decide

/-! ### Identifier synthesis, in general -/

/-- The loop of `my_strrchr` keeps `ptr` on a string without `c`. -/
theorem my_strrchr_loop_not_mem (c : Char) : ∀ (s : CStr) (ptr : Option CStr), c ∉ s →
    my_strrchr_loop c s ptr = ptr := by
  intro s
  induction s with
  | nil => intro ptr _; rfl
  | cons x xs ih =>
    intro ptr h
    have hx : x ≠ c := fun e => h (by simp [e])
    have hxs : c ∉ xs := fun e => h (by simp [e])
    rw [my_strrchr_loop, if_neg hx, ih ptr hxs]

/-- The loop of `my_strrchr` ends on the last occurrence of `c`. -/
theorem my_strrchr_loop_append (c : Char) (tl : CStr) (htl : c ∉ tl) :
    ∀ (pre : CStr) (ptr : Option CStr),
    my_strrchr_loop c (pre ++ c :: tl) ptr = some (c :: tl) := by
  intro pre
  induction pre with
  | nil =>
    intro ptr
    rw [List.nil_append, my_strrchr_loop, if_pos rfl, my_strrchr_loop_not_mem c tl _ htl]
  | cons x xs ih =>
    intro ptr
    rw [List.cons_append, my_strrchr_loop, ih]

/-- The result of `strrchr` on a string without `c` is NULL. -/
theorem strrchr_not_mem (s : CStr) (c : Char) (h : c ∉ s) : strrchr s c = none :=
  my_strrchr_loop_not_mem c s none h

/-- The result of `strrchr` points at the last occurrence of `c`. -/
theorem strrchr_append (pre tl : CStr) (c : Char) (htl : c ∉ tl) :
    strrchr (pre ++ c :: tl) c = some (c :: tl) :=
  my_strrchr_loop_append c tl htl pre none

/-- A string with `c` splits at its last occurrence of `c`. -/
theorem exists_last_occurrence (c : Char) : ∀ (s : CStr), c ∈ s →
    ∃ pre tl, s = pre ++ c :: tl ∧ c ∉ tl := by
  intro s
  induction s with
  | nil => intro h; simp at h
  | cons x xs ih =>
    intro h
    by_cases hxs : c ∈ xs
    · obtain ⟨pre, tl, e, htl⟩ := ih hxs
      exact ⟨x :: pre, tl, by rw [e]; rfl, htl⟩
    · have hx : c = x := by
        rcases List.mem_cons.mp h with e | e
        · exact e
        · exact absurd e hxs
      subst hx
      exact ⟨[], xs, rfl, hxs⟩

/-- The stem of a filename without `/` that splits at its last dot. -/
theorem add_export_stem_ext (b e : CStr) (hb : '/' ∉ b) (he : '/' ∉ e) (hdot : '.' ∉ e) :
    add_export_stem (b ++ '.' :: e) = '_' :: e ++ '_' :: spec_sanitize b := by
  have hslash : '/' ∉ b ++ '.' :: e := by
    simp only [List.mem_append, List.mem_cons, not_or]
    exact ⟨hb, by decide, he⟩
  unfold add_export_stem
  rw [strrchr_not_mem _ _ hslash]
  simp only [strrchr_append b e '.' hdot]
  simp [spec_sanitize]

/-- The stem of a filename without `/` and without dot. -/
theorem add_export_stem_plain (b : CStr) (hb : '/' ∉ b) (hdot : '.' ∉ b) :
    add_export_stem b = '_' :: spec_sanitize b := by
  unfold add_export_stem
  rw [strrchr_not_mem _ _ hb]
  simp only [strrchr_not_mem _ _ hdot]
  simp [spec_sanitize]

/-- The identifier is the stem followed by the suffix for the stem. -/
theorem add_export_name_eq (filename : CStr) :
    add_export_name filename = add_export_stem filename ++ spec_suffix (add_export_stem filename) := by
  unfold add_export_name spec_suffix
  by_cases h : (add_export_stem filename).getLast? = some '_'
  · simp only [h, if_true]
  · simp only [h, if_false]

/-- The suffix has four or five characters. -/
theorem spec_suffix_length (s : CStr) :
    (spec_suffix s).length = 4 ∨ (spec_suffix s).length = 5 := by
  unfold spec_suffix
  split_ifs
  · left; rfl
  · right; rfl

/-- A result of `strrchr` other than NULL is the part of the string from the
last occurrence of `c` on. -/
theorem strrchr_some (s e : CStr) (c : Char) (h : strrchr s c = some e) :
    ∃ pre tl, s = pre ++ c :: tl ∧ e = c :: tl ∧ c ∉ tl := by
  by_cases hc : c ∈ s
  · obtain ⟨pre, tl, hs, htl⟩ := exists_last_occurrence c s hc
    refine ⟨pre, tl, hs, ?_, htl⟩
    rw [hs, strrchr_append pre tl c htl] at h
    exact (Option.some.inj h).symm
  · rw [strrchr_not_mem s c hc] at h
    exact absurd h (by simp)

/-- The stem is one character longer than the part of the filename that
`begin` points to. -/
theorem add_export_stem_length (filename : CStr) :
    (add_export_stem filename).length = (begin_of filename).length + 1 := by
  have hstem : add_export_stem filename =
      (match strrchr (begin_of filename) '.' with
        | some e => (['_'] ++ e.drop 1 ++ ['_'])
        | none => (['_'] : CStr))
      ++ (match strrchr (begin_of filename) '.' with
        | some e => (begin_of filename).take ((begin_of filename).length - e.length)
        | none => begin_of filename).map (fun c => if isalnum c then c else '_') := rfl
  rw [hstem]
  cases hext : strrchr (begin_of filename) '.' with
  | none => simp
  | some e =>
    obtain ⟨pre, tl, hs, he, _⟩ := strrchr_some _ _ _ hext
    simp only [List.length_append, List.length_map, List.length_take, List.length_drop,
      List.length_cons, List.length_nil]
    have h1 : (begin_of filename).length = pre.length + (tl.length + 1) := by
      rw [hs]; simp
    have h2 : e.length = tl.length + 1 := by rw [he]; simp
    omega

/-- The function `add_export` returns the identifier whenever the identifier
and its NUL fit the static buffer. -/
theorem add_export_fits (filename : CStr) (st : Exports)
    (h : (add_export_name filename).length + 1 ≤ STRNAME_SIZE) :
    add_export filename st = some (add_export_name filename,
      { strname := add_export_name filename,
        exports_head := ⟨CharPtr.strname⟩ :: st.exports_head }) := by
  unfold add_export
  simp only [h, if_true]

/-- C11: for a filename without `/` that its last dot splits into the base
`b` and the extension `e`, the identifier that `add_export` builds is
underscore, `e`, underscore, the base with every character that is not
alphanumeric replaced by an underscore (of the length of `b`), and the suffix
`data` when the text so far ends in an underscore and `_data` otherwise; and
`add_export` returns it whenever it fits the static buffer. -/
theorem add_export_with_extension (b e : CStr) (hb : '/' ∉ b) (he : '/' ∉ e)
    (hdot : '.' ∉ e) :
    add_export_name (b ++ '.' :: e) = spec_identifier_ext b e ∧
    (spec_sanitize b).length = b.length ∧
    ∀ st : Exports, (spec_identifier_ext b e).length + 1 ≤ STRNAME_SIZE →
      (add_export (b ++ '.' :: e) st).map Prod.fst = some (spec_identifier_ext b e) := by
  have hname : add_export_name (b ++ '.' :: e) = spec_identifier_ext b e := by
    rw [add_export_name_eq, add_export_stem_ext b e hb he hdot]
    rfl
  refine ⟨hname, by simp [spec_sanitize], ?_⟩
  intro st hfit
  rw [← hname] at hfit
  rw [add_export_fits _ st hfit, hname]
  rfl

/-- Witness of `add_export_with_extension`: `a.png` gives `_png_a_data`. -/
theorem add_export_with_extension_witness :
    '/' ∉ "a".toList ∧ '/' ∉ "png".toList ∧ '.' ∉ "png".toList ∧
    spec_identifier_ext "a".toList "png".toList = "_png_a_data".toList ∧
    add_export_name ("a".toList ++ '.' :: "png".toList) = spec_identifier_ext "a".toList "png".toList ∧
    (spec_sanitize "a".toList).length = "a".toList.length ∧
    (add_export ("a".toList ++ '.' :: "png".toList) Exports.init).map Prod.fst
      = some (spec_identifier_ext "a".toList "png".toList) :=
  ⟨by decide, by decide, by decide, by decide,
    (add_export_with_extension "a".toList "png".toList (by decide) (by decide) (by decide)).1,
    (add_export_with_extension "a".toList "png".toList (by decide) (by decide) (by decide)).2.1,
    (add_export_with_extension "a".toList "png".toList (by decide) (by decide) (by decide)).2.2
      Exports.init (by decide)⟩

/-- C12 (counterexample): for `readme`, which has no extension, the
identifier is `_readme_data`: it begins with the underscore the code always
writes first, not with `r`, the first character of the sanitized base name,
and it is not the sanitized base name followed by the suffix. -/
theorem add_export_name_plain_leading_underscore :
    add_export_name "readme".toList = "_readme_data".toList ∧
    (add_export_name "readme".toList).head? ≠ (spec_sanitize "readme".toList).head? ∧
    add_export_name "readme".toList
      ≠ spec_sanitize "readme".toList ++ spec_suffix (spec_sanitize "readme".toList) := by
  decide

/-- C12, as amended: for a filename without `/` and without dot, the
identifier that `add_export` builds is one underscore, the name with every
character that is not alphanumeric replaced by an underscore, and the suffix;
it begins with that underscore, no extension prefix is inserted, and
`add_export` returns it whenever it fits the static buffer. -/
theorem add_export_without_extension (b : CStr) (hb : '/' ∉ b) (hdot : '.' ∉ b) :
    add_export_name b = spec_identifier_plain b ∧
    (add_export_name b).head? = some '_' ∧
    ∀ st : Exports, (spec_identifier_plain b).length + 1 ≤ STRNAME_SIZE →
      (add_export b st).map Prod.fst = some (spec_identifier_plain b) := by
  have hname : add_export_name b = spec_identifier_plain b := by
    rw [add_export_name_eq, add_export_stem_plain b hb hdot]
    rfl
  refine ⟨hname, by rw [hname]; rfl, ?_⟩
  intro st hfit
  rw [← hname] at hfit
  rw [add_export_fits _ st hfit, hname]
  rfl

/-- Witness of `add_export_without_extension`: `read-me` gives
`_read_me_data`. -/
theorem add_export_without_extension_witness :
    '/' ∉ "read-me".toList ∧ '.' ∉ "read-me".toList ∧
    spec_identifier_plain "read-me".toList = "_read_me_data".toList ∧
    add_export_name "read-me".toList = spec_identifier_plain "read-me".toList ∧
    (add_export_name "read-me".toList).head? = some '_' ∧
    (add_export "read-me".toList Exports.init).map Prod.fst
      = some (spec_identifier_plain "read-me".toList) :=
  ⟨by decide, by decide, by decide,
    (add_export_without_extension "read-me".toList (by decide) (by decide)).1,
    (add_export_without_extension "read-me".toList (by decide) (by decide)).2.1,
    (add_export_without_extension "read-me".toList (by decide) (by decide)).2.2
      Exports.init (by decide)⟩

/-- C18: with `L` the length of the part of the filename from its last `/`
on (of the whole filename when it has no `/`), the identifier has `L + 5` or
`L + 6` characters; and when `L <= 1017` the identifier and its NUL fit the
1024 bytes of `strname`, so `add_export` stores nothing outside the buffer
and returns the identifier. -/
theorem add_export_name_length (filename : CStr) :
    ((add_export_name filename).length = (begin_of filename).length + 5 ∨
      (add_export_name filename).length = (begin_of filename).length + 6) ∧
    ((begin_of filename).length ≤ 1017 →
      (add_export_name filename).length + 1 ≤ STRNAME_SIZE ∧
      ∀ st : Exports, (add_export filename st).map Prod.fst = some (add_export_name filename)) := by
  have hlen : (add_export_name filename).length = (begin_of filename).length + 5 ∨
      (add_export_name filename).length = (begin_of filename).length + 6 := by
    rw [add_export_name_eq, List.length_append, add_export_stem_length]
    rcases spec_suffix_length (add_export_stem filename) with h | h
    · left; omega
    · right; omega
  refine ⟨hlen, ?_⟩
  intro hL
  have hfit : (add_export_name filename).length + 1 ≤ STRNAME_SIZE := by
    unfold STRNAME_SIZE
    omega
  refine ⟨hfit, ?_⟩
  intro st
  rw [add_export_fits _ st hfit]
  rfl

/-- Witness of `add_export_name_length`: `dir/a.png`, where `L` is 6. -/
theorem add_export_name_length_witness :
    (begin_of "dir/a.png".toList).length ≤ 1017 ∧
    (((add_export_name "dir/a.png".toList).length = (begin_of "dir/a.png".toList).length + 5 ∨
      (add_export_name "dir/a.png".toList).length = (begin_of "dir/a.png".toList).length + 6)) ∧
    (add_export_name "dir/a.png".toList).length + 1 ≤ STRNAME_SIZE ∧
    ∀ st : Exports, (add_export "dir/a.png".toList st).map Prod.fst
      = some (add_export_name "dir/a.png".toList) :=
  ⟨by decide, (add_export_name_length "dir/a.png".toList).1,
    (add_export_name_length "dir/a.png".toList).2 (by decide)⟩

/-- Calls of `add_export` for files whose identifiers fit: one record more
per file, each pointing to `strname`, which holds the identifier of the last
file. -/
theorem add_exports_state : ∀ (files : List CStr) (st0 : Exports),
    (∀ f ∈ files, (add_export_name f).length + 1 ≤ STRNAME_SIZE) →
    ∃ st, add_exports files st0 = some st ∧
      st.exports_head = List.replicate files.length ⟨CharPtr.strname⟩ ++ st0.exports_head ∧
      st.strname = (files.getLast?.map add_export_name).getD st0.strname := by
  intro files
  induction files with
  | nil => intro st0 _; exact ⟨st0, rfl, rfl, rfl⟩
  | cons f fs ih =>
    intro st0 hfit
    have hf := hfit f (by simp)
    obtain ⟨st, hrun, hhead, hname⟩ := ih
      { strname := add_export_name f, exports_head := ⟨CharPtr.strname⟩ :: st0.exports_head }
      (fun g hg => hfit g (by simp [hg]))
    refine ⟨st, ?_, ?_, ?_⟩
    · rw [add_exports, add_export_fits f st0 hf]
      exact hrun
    · rw [hhead]
      simp [List.replicate_succ']
    · rw [hname]
      cases fs with
      | nil => rfl
      | cons g gs =>
        have hl : (g :: gs).getLast? = some ((g :: gs).getLast (by simp)) :=
          List.getLast?_eq_getLast _ _
        rw [List.getLast?_cons_cons, hl]
        rfl

/-- C16: after `add_export` has been called for the files `init ++ [last]`
(each identifier fitting the static buffer), the export list has one record
per file, every record points to the one static buffer and reads as the
identifier of `last`, and `print_exports` prints that identifier once per
record. -/
theorem add_export_records_alias (init : List CStr) (last : CStr)
    (hfit : ∀ f ∈ init ++ [last], (add_export_name f).length + 1 ≤ STRNAME_SIZE) :
    ∃ st, add_exports (init ++ [last]) Exports.init = some st ∧
      st.strname = add_export_name last ∧
      st.exports_head.length = init.length + 1 ∧
      (∀ r ∈ st.exports_head, r.export_data = CharPtr.strname ∧
        st.deref r.export_data = add_export_name last) ∧
      print_exports st
        = (List.replicate (init.length + 1) ('\t' :: add_export_name last ++ ['\n'])).flatten := by
  obtain ⟨st, hrun, hhead, hname⟩ := add_exports_state (init ++ [last]) Exports.init hfit
  have hname1 : st.strname = add_export_name last := by
    rw [hname]; simp
  have hhead1 : st.exports_head = List.replicate (init.length + 1) ⟨CharPtr.strname⟩ := by
    rw [hhead]; simp [Exports.init]
  refine ⟨st, hrun, hname1, by rw [hhead1]; simp, ?_, ?_⟩
  · intro r hr
    rw [hhead1] at hr
    have hr1 : r = ⟨CharPtr.strname⟩ := (List.mem_replicate.mp hr).2
    subst hr1
    exact ⟨rfl, hname1⟩
  · unfold print_exports
    rw [hhead1, List.flatMap_replicate]
    simp [Exports.deref, hname1]

/-- Witness of `add_export_records_alias`: the files `a.png`, `b.txt` and
`c.bin`. -/
theorem add_export_records_alias_witness :
    (∀ f ∈ ["a.png".toList, "b.txt".toList] ++ ["c.bin".toList],
      (add_export_name f).length + 1 ≤ STRNAME_SIZE) ∧
    ∃ st, add_exports (["a.png".toList, "b.txt".toList] ++ ["c.bin".toList]) Exports.init
        = some st ∧
      st.strname = add_export_name "c.bin".toList ∧
      st.exports_head.length = ["a.png".toList, "b.txt".toList].length + 1 ∧
      (∀ r ∈ st.exports_head, r.export_data = CharPtr.strname ∧
        st.deref r.export_data = add_export_name "c.bin".toList) ∧
      print_exports st
        = (List.replicate (["a.png".toList, "b.txt".toList].length + 1)
            ('\t' :: add_export_name "c.bin".toList ++ ['\n'])).flatten :=
  ⟨by decide,
    add_export_records_alias ["a.png".toList, "b.txt".toList] "c.bin".toList (by decide)⟩

/-! ### Command line, in general -/

/-- A token that does not begin with `-` is no flag. -/
theorem is_flag_of_not_dash (t : CStr) (c : Char) (h : t[0]? ≠ some '-') :
    is_flag t c = false := by
  unfold is_flag
  cases h0 : t[0]? with
  | none => rfl
  | some x =>
    have hx : x ≠ '-' := fun e => h (by rw [h0, e])
    simp [hx]

/-- The loop stores tokens that do not begin with `-` in the free slots, in
order. -/
theorem parse_loop_store (rest : List CStr) (out : Option CStr) :
    ∀ (toks done : List CStr) (k : Nat), (∀ t ∈ toks, t[0]? ≠ some '-') → toks.length ≤ k →
    parse_loop (toks ++ rest)
        { pOutputfile := out, ppFilelist := done.map some ++ List.replicate k none,
          list_idx := done.length }
      = parse_loop rest
        { pOutputfile := out,
          ppFilelist := (done ++ toks).map some ++ List.replicate (k - toks.length) none,
          list_idx := (done ++ toks).length } := by
  intro toks
  induction toks with
  | nil => intro done k _ _; simp
  | cons t toks ih =>
    intro done k hdash hlen
    obtain ⟨k1, rfl⟩ : ∃ k1, k = k1 + 1 := ⟨k - 1, by simp only [List.length_cons] at hlen; omega⟩
    have ht : t[0]? ≠ some '-' := hdash t (by simp)
    have hidx : done.length < (done.map some ++ List.replicate (k1 + 1) (none : Option CStr)).length := by
      simp
    have hset : (done.map some ++ List.replicate (k1 + 1) (none : Option CStr)).set done.length (some t)
        = (done ++ [t]).map some ++ List.replicate k1 none := by
      rw [List.set_append_right _ _ (by simp)]
      simp [List.replicate_succ]
    have hrec := ih (done ++ [t]) k1 (fun u hu => hdash u (by simp [hu]))
      (by simp only [List.length_cons] at hlen; omega)
    rw [List.cons_append, parse_loop.eq_def]
    simp only [is_flag_of_not_dash t _ ht, Bool.false_eq_true, if_false, Bool.or_self, hidx,
      if_true, hset]
    have e1 : done.length + 1 = (done ++ [t]).length := by simp
    rw [e1, hrec]
    simp

/-- C13: for a command line of at least four tokens made of the program
name, tokens that do not begin with `-`, one pair `-o <path>` and further
tokens that do not begin with `-`, `parser_args` returns 0, the output path
is `<path>` and the file list holds the other tokens in command-line order,
one per slot. -/
theorem parser_args_one_output_pair (prog path : CStr) (pre post : List CStr)
    (hdash : ∀ t ∈ pre ++ post, t[0]? ≠ some '-')
    (hargc : 4 ≤ (prog :: (pre ++ "-o".toList :: path :: post)).length) :
    parser_args (prog :: (pre ++ "-o".toList :: path :: post))
      = some (0, { pOutputfile := some path, ppFilelist := (pre ++ post).map some,
                   list_idx := (pre ++ post).length }) := by
  have hn : (prog :: (pre ++ "-o".toList :: path :: post)).length - 3
      = pre.length + post.length := by
    simp only [List.length_cons, List.length_append]; omega
  have h4 : ¬ (prog :: (pre ++ "-o".toList :: path :: post)).length < 4 := by omega
  have hpos : 1 ≤ pre.length + post.length := by
    simp only [List.length_cons, List.length_append] at hargc; omega
  unfold parser_args
  rw [if_neg h4, hn, List.drop_succ_cons, List.drop_zero]
  have h1 := parse_loop_store ("-o".toList :: path :: post) none pre [] (pre.length + post.length)
    (fun t ht => hdash t (by simp [ht])) (by omega)
  simp only [List.map_nil, List.nil_append, List.length_nil] at h1
  rw [h1, parse_loop.eq_def]
  have ho : is_flag "-o".toList 'o' = true := by decide
  simp only [ho, if_true]
  have h2 := parse_loop_store [] (some path) post pre (pre.length + post.length - pre.length)
    (fun t ht => hdash t (by simp [ht])) (by omega)
  simp only [List.append_nil] at h2
  rw [h2]
  have hz : pre.length + post.length - pre.length - post.length = 0 := by omega
  rw [hz]
  simp [parse_loop]

/-- Witness of `parser_args_one_output_pair`: `bin2c a.png -o out.c b.txt`. -/
theorem parser_args_one_output_pair_witness :
    (∀ t ∈ ["a.png".toList] ++ ["b.txt".toList], t[0]? ≠ some '-') ∧
    4 ≤ ("bin2c".toList :: (["a.png".toList] ++ "-o".toList :: "out.c".toList
      :: ["b.txt".toList])).length ∧
    parser_args ("bin2c".toList :: (["a.png".toList] ++ "-o".toList :: "out.c".toList
        :: ["b.txt".toList]))
      = some (0, { pOutputfile := some "out.c".toList,
                   ppFilelist := (["a.png".toList] ++ ["b.txt".toList]).map some,
                   list_idx := (["a.png".toList] ++ ["b.txt".toList]).length }) :=
  ⟨by decide, by decide,
    parser_args_one_output_pair "bin2c".toList "out.c".toList ["a.png".toList] ["b.txt".toList]
      (by decide) (by decide)⟩

/-- C17 (at the failing inputs `bin2c -o x -o y` and `bin2c a b c`): for the
first, `parser_args` returns 0 with no path stored while `argc - 3` is 2, and
`main` goes on to open the NULL entry `ppFilelist[0]`; for the second, the
three stores go to the one slot allocated. -/
theorem parser_args_count_mismatch :
    (parser_args ["bin2c".toList, "-o".toList, "x".toList, "-o".toList, "y".toList]).map
        (fun r => (r.1, r.2.list_idx)) = some (0, 0) ∧
    (parser_args ["bin2c".toList, "-o".toList, "x".toList, "-o".toList, "y".toList]).map
        (fun r => r.2.ppFilelist) = some [none, none] ∧
    ["bin2c".toList, "-o".toList, "x".toList, "-o".toList, "y".toList].length - 3 = 2 ∧
    main ["bin2c".toList, "-o".toList, "x".toList, "-o".toList, "y".toList] World.empty = none ∧
    parser_args ["bin2c".toList, "a".toList, "b".toList, "c".toList] = none := by
  refine ⟨by decide, by decide, by decide, by decide, by decide⟩

/-! ### The source buffer across the run -/

/-- The growth step from a state within bounds: the length is kept, there is
room for a chunk afterwards, and the capacity grew by `BUF_SIZE` or not at
all. -/
theorem grow_source_spec (heap_limit : Nat) (s s1 : SourceBuf)
    (hlimit : heap_limit + BUF_SIZE < ULONG_MOD)
    (hlen : s.ulSourceLen ≤ s.ulSourceBufSize) (hcap : s.ulSourceBufSize ≤ heap_limit)
    (h : grow_source heap_limit s = some s1) :
    s1.ulSourceLen = s.ulSourceLen ∧ s1.ulSourceLen + BUF_SIZE ≤ s1.ulSourceBufSize ∧
    s1.ulSourceBufSize ≤ heap_limit ∧
    (s1.ulSourceBufSize = s.ulSourceBufSize ∨
      s1.ulSourceBufSize = s.ulSourceBufSize + BUF_SIZE) := by
  have hB : BUF_SIZE = 16384 := rfl
  have hm1 : (s.ulSourceLen + BUF_SIZE) % ULONG_MOD = s.ulSourceLen + BUF_SIZE :=
    Nat.mod_eq_of_lt (by omega)
  have hm2 : (s.ulSourceBufSize + BUF_SIZE) % ULONG_MOD = s.ulSourceBufSize + BUF_SIZE :=
    Nat.mod_eq_of_lt (by omega)
  unfold grow_source at h
  rw [hm1, hm2] at h
  by_cases hg : s.ulSourceLen + BUF_SIZE > s.ulSourceBufSize
  · rw [if_pos hg] at h
    by_cases hf : heap_limit < s.ulSourceBufSize + BUF_SIZE
    · rw [if_pos hf] at h
      exact absurd h (by simp)
    · rw [if_neg hf] at h
      have e := Option.some.inj h
      subst e
      exact ⟨rfl, by simp only; omega, by simp only; omega, Or.inr rfl⟩
  · rw [if_neg hg] at h
    have e := Option.some.inj h
    subst e
    exact ⟨rfl, by omega, hcap, Or.inl rfl⟩

/-- The facts of the source buffer after one more event. -/
theorem source_step_spec (heap_limit : Nat) (s s1 : SourceBuf) (e : ReadEvent)
    (hlimit : heap_limit + BUF_SIZE < ULONG_MOD)
    (hchunk : e.bytes ≤ BUF_SIZE)
    (hlen : s.ulSourceLen ≤ s.ulSourceBufSize) (hdvd : BUF_SIZE ∣ s.ulSourceBufSize)
    (hcap : s.ulSourceBufSize ≤ heap_limit)
    (h : source_step heap_limit s e = some s1) :
    s1.ulSourceLen ≤ s1.ulSourceBufSize ∧ BUF_SIZE ∣ s1.ulSourceBufSize ∧
    s1.ulSourceBufSize ≤ heap_limit ∧ s.ulSourceBufSize ≤ s1.ulSourceBufSize := by
  cases e with
  | open_file =>
    rw [source_step] at h
    have h := Option.some.inj h
    subst h
    exact ⟨Nat.zero_le _, hdvd, hcap, Nat.le_refl _⟩
  | chunk n =>
    have hn : n ≤ BUF_SIZE := hchunk
    rw [source_step] at h
    cases hg : grow_source heap_limit s with
    | none => rw [hg] at h; exact absurd h (by simp)
    | some s2 =>
      rw [hg] at h
      simp only [Option.map_some', Option.some.injEq] at h
      obtain ⟨h1, h2, h3, h4⟩ := grow_source_spec heap_limit s s2 hlimit hlen hcap hg
      have hmod : (s2.ulSourceLen + n) % ULONG_MOD = s2.ulSourceLen + n :=
        Nat.mod_eq_of_lt (by omega)
      rw [hmod] at h
      subst h
      refine ⟨by simp only; omega, ?_, h3, by simp only; omega⟩
      rcases h4 with h4 | h4
      · simp only; rw [h4]; exact hdvd
      · simp only; rw [h4]; exact Nat.dvd_add hdvd (Nat.dvd_refl _)

/-- The facts of the source buffer at the end of any sequence of events. -/
theorem source_run_spec (heap_limit : Nat) (hlimit : heap_limit + BUF_SIZE < ULONG_MOD) :
    ∀ (events : List ReadEvent) (s s1 : SourceBuf),
    (∀ e ∈ events, e.bytes ≤ BUF_SIZE) →
    s.ulSourceLen ≤ s.ulSourceBufSize → BUF_SIZE ∣ s.ulSourceBufSize →
    s.ulSourceBufSize ≤ heap_limit →
    source_run heap_limit events s = some s1 →
    s1.ulSourceLen ≤ s1.ulSourceBufSize ∧ BUF_SIZE ∣ s1.ulSourceBufSize ∧
    s1.ulSourceBufSize ≤ heap_limit ∧ s.ulSourceBufSize ≤ s1.ulSourceBufSize := by
  intro events
  induction events with
  | nil =>
    intro s s1 _ hlen hdvd hcap h
    simp only [source_run, Option.some.injEq] at h
    subst h
    exact ⟨hlen, hdvd, hcap, Nat.le_refl _⟩
  | cons e es ih =>
    intro s s1 hchunk hlen hdvd hcap h
    rw [source_run] at h
    cases hs : source_step heap_limit s e with
    | none => rw [hs] at h; exact absurd h (by simp)
    | some s2 =>
      rw [hs, Option.some_bind] at h
      obtain ⟨h1, h2, h3, h4⟩ := source_step_spec heap_limit s s2 e hlimit
        (hchunk e (by simp)) hlen hdvd hcap hs
      obtain ⟨k1, k2, k3, k4⟩ := ih s2 s1 (fun x hx => hchunk x (by simp [hx])) h1 h2 h3 h
      exact ⟨k1, k2, k3, Nat.le_trans h4 k4⟩

/-- A run splits at any point into the run up to it and the run from it. -/
theorem source_run_append (heap_limit : Nat) : ∀ (es1 es2 : List ReadEvent) (s : SourceBuf),
    source_run heap_limit (es1 ++ es2) s
      = (source_run heap_limit es1 s).bind (source_run heap_limit es2) := by
  intro es1
  induction es1 with
  | nil => intro es2 s; rfl
  | cons e es ih =>
    intro es2 s
    rw [List.cons_append, source_run, source_run]
    cases source_step heap_limit s e with
    | none => rfl
    | some s1 => exact ih es2 s1

/-- C14: at every point of a run (files opened one after the other on the
same buffer, every `fread` returning at most `BUF_SIZE` bytes, `realloc`
granting at most `heap_limit` bytes) the logical length is at most the
capacity and the capacity is a multiple of `BUF_SIZE`; the growth step before
the next read leaves the length, adds `BUF_SIZE` to the capacity at most
once and makes `ulSourceLen + BUF_SIZE <= ulSourceBufSize`; and the capacity
at every earlier point of the run is at most the capacity reached. -/
theorem source_buffer_invariant (heap_limit : Nat) (events : List ReadEvent) (s : SourceBuf)
    (hlimit : heap_limit + BUF_SIZE < ULONG_MOD)
    (hchunk : ∀ e ∈ events, e.bytes ≤ BUF_SIZE)
    (hrun : source_run heap_limit events { ulSourceLen := 0, ulSourceBufSize := 0 } = some s) :
    s.ulSourceLen ≤ s.ulSourceBufSize ∧ BUF_SIZE ∣ s.ulSourceBufSize ∧
    (∀ s1, grow_source heap_limit s = some s1 →
      s1.ulSourceLen = s.ulSourceLen ∧ s1.ulSourceLen + BUF_SIZE ≤ s1.ulSourceBufSize ∧
      (s1.ulSourceBufSize = s.ulSourceBufSize ∨
        s1.ulSourceBufSize = s.ulSourceBufSize + BUF_SIZE)) ∧
    (∀ es1 es2 s0, events = es1 ++ es2 →
      source_run heap_limit es1 { ulSourceLen := 0, ulSourceBufSize := 0 } = some s0 →
      s0.ulSourceBufSize ≤ s.ulSourceBufSize) := by
  obtain ⟨h1, h2, h3, _⟩ := source_run_spec heap_limit hlimit events _ s hchunk
    (Nat.le_refl _) (Nat.dvd_zero _) (Nat.zero_le _) hrun
  refine ⟨h1, h2, ?_, ?_⟩
  · intro s1 hg
    obtain ⟨g1, g2, _, g4⟩ := grow_source_spec heap_limit s s1 hlimit h1 h3 hg
    exact ⟨g1, g2, g4⟩
  · intro es1 es2 s0 hsplit hrun1
    subst hsplit
    obtain ⟨k1, k2, k3, _⟩ := source_run_spec heap_limit hlimit es1 _ s0
      (fun x hx => hchunk x (by simp [hx])) (Nat.le_refl _) (Nat.dvd_zero _) (Nat.zero_le _) hrun1
    rw [source_run_append, hrun1, Option.some_bind] at hrun
    exact (source_run_spec heap_limit hlimit es2 s0 s
      (fun x hx => hchunk x (by simp [hx])) k1 k2 k3 hrun).2.2.2

/-- Witness of `source_buffer_invariant`: a file read in chunks of 16384 and
100 bytes, then a file of 32768 bytes and its last, empty `fread`. -/
theorem source_buffer_invariant_witness :
    2 ^ 32 + BUF_SIZE < ULONG_MOD ∧
    (∀ e ∈ [ReadEvent.open_file, ReadEvent.chunk 16384, ReadEvent.chunk 100,
      ReadEvent.open_file, ReadEvent.chunk 16384, ReadEvent.chunk 16384, ReadEvent.chunk 0],
      e.bytes ≤ BUF_SIZE) ∧
    source_run (2 ^ 32) [ReadEvent.open_file, ReadEvent.chunk 16384, ReadEvent.chunk 100,
      ReadEvent.open_file, ReadEvent.chunk 16384, ReadEvent.chunk 16384, ReadEvent.chunk 0]
      { ulSourceLen := 0, ulSourceBufSize := 0 }
      = some { ulSourceLen := 32768, ulSourceBufSize := 49152 } ∧
    (32768 ≤ 49152 ∧ BUF_SIZE ∣ 49152 ∧
    (∀ s1, grow_source (2 ^ 32) { ulSourceLen := 32768, ulSourceBufSize := 49152 } = some s1 →
      s1.ulSourceLen = 32768 ∧ s1.ulSourceLen + BUF_SIZE ≤ s1.ulSourceBufSize ∧
      (s1.ulSourceBufSize = 49152 ∨ s1.ulSourceBufSize = 49152 + BUF_SIZE)) ∧
    (∀ es1 es2 s0, [ReadEvent.open_file, ReadEvent.chunk 16384, ReadEvent.chunk 100,
        ReadEvent.open_file, ReadEvent.chunk 16384, ReadEvent.chunk 16384, ReadEvent.chunk 0]
        = es1 ++ es2 →
      source_run (2 ^ 32) es1 { ulSourceLen := 0, ulSourceBufSize := 0 } = some s0 →
      s0.ulSourceBufSize ≤ 49152)) :=
  ⟨by decide, by decide, by decide,
    source_buffer_invariant (2 ^ 32) [ReadEvent.open_file, ReadEvent.chunk 16384,
      ReadEvent.chunk 100, ReadEvent.open_file, ReadEvent.chunk 16384, ReadEvent.chunk 16384,
      ReadEvent.chunk 0] { ulSourceLen := 32768, ulSourceBufSize := 49152 }
      (by decide) (by decide) (by decide)⟩

/-- One iteration of the reading loop. -/
theorem read_loop_succ (data : List Nat) (fault : Option Nat) (heap_limit fuel pos : Nat)
    (g : Globals) :
    read_loop data fault heap_limit (fuel + 1) pos g =
      (let grow := decide ((g.ulSourceLen + BUF_SIZE) % ULONG_MOD > g.ulSourceBufSize)
       let size := if grow then (g.ulSourceBufSize + BUF_SIZE) % ULONG_MOD else g.ulSourceBufSize
       if grow && decide (heap_limit < size) then
         some (ReadResult.nomem { g with ulSourceBufSize := size,
                                         heap := { g.heap with pu8Source := none } })
       else
         let heap := if grow then
             { g.heap with pu8Source := some g.heap.fresh, live := some g.heap.fresh,
                           fresh := g.heap.fresh + 1 }
           else g.heap
         if g.ulSourceLen + BUF_SIZE ≤ size then
           let failing := match fault with
             | some k => decide (k < data.length ∧ k < pos + BUF_SIZE)
             | none => false
           let bytes := if failing then (data.drop pos).take (fault.getD 0 - pos)
             else (data.drop pos).take BUF_SIZE
           let g1 : Globals := { g with
             heap := heap
             ulSourceBufSize := size
             source := g.source.take g.ulSourceLen ++ bytes
               ++ g.source.drop (g.ulSourceLen + bytes.length)
             ulSourceLen := (g.ulSourceLen + bytes.length) % ULONG_MOD }
           if failing then some (ReadResult.ioerr g1)
           else if bytes.length < BUF_SIZE then some (ReadResult.done g1)
           else read_loop data fault heap_limit fuel (pos + BUF_SIZE) g1
         else none) := rfl

/-- The growth step of the reading loop, by cases. -/
theorem grow_source_cases (heap_limit : Nat) (s : SourceBuf) :
    ((s.ulSourceLen + BUF_SIZE) % ULONG_MOD > s.ulSourceBufSize ∧
      heap_limit < (s.ulSourceBufSize + BUF_SIZE) % ULONG_MOD ∧
      grow_source heap_limit s = none) ∨
    ((s.ulSourceLen + BUF_SIZE) % ULONG_MOD > s.ulSourceBufSize ∧
      ¬ heap_limit < (s.ulSourceBufSize + BUF_SIZE) % ULONG_MOD ∧
      grow_source heap_limit s
        = some { s with ulSourceBufSize := (s.ulSourceBufSize + BUF_SIZE) % ULONG_MOD }) ∨
    (¬ (s.ulSourceLen + BUF_SIZE) % ULONG_MOD > s.ulSourceBufSize ∧
      grow_source heap_limit s = some s) := by
  unfold grow_source
  by_cases hg : (s.ulSourceLen + BUF_SIZE) % ULONG_MOD > s.ulSourceBufSize
  · by_cases hm : heap_limit < (s.ulSourceBufSize + BUF_SIZE) % ULONG_MOD
    · left; exact ⟨hg, hm, by rw [if_pos hg, if_pos hm]⟩
    · right; left; exact ⟨hg, hm, by rw [if_pos hg, if_neg hm]⟩
  · right; right; exact ⟨hg, by rw [if_neg hg]⟩

/-- One iteration of the reading loop, seen from the source buffer: it ends
with `realloc` failing when the growth step fails, and otherwise adds a chunk
of at most `BUF_SIZE` bytes and ends or goes on. -/
theorem read_loop_iteration (data : List Nat) (fault : Option Nat) (heap_limit fuel pos : Nat)
    (g : Globals) (r : ReadResult)
    (h : read_loop data fault heap_limit (fuel + 1) pos g = some r) :
    (grow_source heap_limit g.buf = none ∧ r.buf = none) ∨
    ∃ (n : Nat) (g1 : Globals), n ≤ BUF_SIZE ∧
      source_step heap_limit g.buf (ReadEvent.chunk n) = some g1.buf ∧
      (r.buf = some g1.buf ∨
        read_loop data fault heap_limit fuel (pos + BUF_SIZE) g1 = some r) := by
  rw [read_loop_succ] at h
  rcases grow_source_cases heap_limit g.buf with ⟨hg, hm, hgrow⟩ | ⟨hg, hm, hgrow⟩ | ⟨hg, hgrow⟩
  · left
    refine ⟨hgrow, ?_⟩
    have hg1 : (g.ulSourceLen + BUF_SIZE) % ULONG_MOD > g.ulSourceBufSize := hg
    have hm1 : heap_limit < (g.ulSourceBufSize + BUF_SIZE) % ULONG_MOD := hm
    simp only [decide_eq_true hg1, if_true, decide_eq_true hm1, Bool.and_self] at h
    have e := Option.some.inj h
    rw [← e]
    rfl
  · right
    have hg1 : (g.ulSourceLen + BUF_SIZE) % ULONG_MOD > g.ulSourceBufSize := hg
    have hm1 : ¬ heap_limit < (g.ulSourceBufSize + BUF_SIZE) % ULONG_MOD := hm
    simp only [decide_eq_true hg1, if_true, decide_eq_false hm1, Bool.and_false,
      Bool.false_eq_true, if_false] at h
    by_cases hb : g.ulSourceLen + BUF_SIZE ≤ (g.ulSourceBufSize + BUF_SIZE) % ULONG_MOD
    · rw [if_pos hb] at h
      cases fault with
      | none =>
        simp only [Bool.false_eq_true, if_false] at h
        by_cases hshort : ((data.drop pos).take BUF_SIZE).length < BUF_SIZE
        · rw [if_pos hshort] at h
          have e := Option.some.inj h
          refine ⟨((data.drop pos).take BUF_SIZE).length, _, List.length_take_le _ _, ?_,
            Or.inl (by rw [← e]; rfl)⟩
          rw [source_step, hgrow]
          rfl
        · rw [if_neg hshort] at h
          refine ⟨((data.drop pos).take BUF_SIZE).length, _, List.length_take_le _ _, ?_,
            Or.inr h⟩
          rw [source_step, hgrow]
          rfl
      | some k =>
        by_cases hk : k < data.length ∧ k < pos + BUF_SIZE
        · simp only [decide_eq_true hk, if_true, Option.getD_some] at h
          have e := Option.some.inj h
          have hle : ((data.drop pos).take (k - pos)).length ≤ BUF_SIZE :=
            Nat.le_trans (List.length_take_le _ _) (by omega)
          refine ⟨((data.drop pos).take (k - pos)).length, _, hle, ?_,
            Or.inl (by rw [← e]; rfl)⟩
          rw [source_step, hgrow]
          rfl
        · simp only [decide_eq_false hk, Bool.false_eq_true, if_false] at h
          by_cases hshort : ((data.drop pos).take BUF_SIZE).length < BUF_SIZE
          · rw [if_pos hshort] at h
            have e := Option.some.inj h
            refine ⟨((data.drop pos).take BUF_SIZE).length, _, List.length_take_le _ _, ?_,
              Or.inl (by rw [← e]; rfl)⟩
            rw [source_step, hgrow]
            rfl
          · rw [if_neg hshort] at h
            refine ⟨((data.drop pos).take BUF_SIZE).length, _, List.length_take_le _ _, ?_,
              Or.inr h⟩
            rw [source_step, hgrow]
            rfl
    · rw [if_neg hb] at h
      exact absurd h (by simp)
  · right
    have hg1 : ¬ (g.ulSourceLen + BUF_SIZE) % ULONG_MOD > g.ulSourceBufSize := hg
    simp only [decide_eq_false hg1, Bool.false_and, Bool.false_eq_true, if_false] at h
    by_cases hb : g.ulSourceLen + BUF_SIZE ≤ g.ulSourceBufSize
    · rw [if_pos hb] at h
      cases fault with
      | none =>
        simp only [Bool.false_eq_true, if_false] at h
        by_cases hshort : ((data.drop pos).take BUF_SIZE).length < BUF_SIZE
        · rw [if_pos hshort] at h
          have e := Option.some.inj h
          refine ⟨((data.drop pos).take BUF_SIZE).length, _, List.length_take_le _ _, ?_,
            Or.inl (by rw [← e]; rfl)⟩
          rw [source_step, hgrow]
          rfl
        · rw [if_neg hshort] at h
          refine ⟨((data.drop pos).take BUF_SIZE).length, _, List.length_take_le _ _, ?_,
            Or.inr h⟩
          rw [source_step, hgrow]
          rfl
      | some k =>
        by_cases hk : k < data.length ∧ k < pos + BUF_SIZE
        · simp only [decide_eq_true hk, if_true, Option.getD_some] at h
          have e := Option.some.inj h
          have hle : ((data.drop pos).take (k - pos)).length ≤ BUF_SIZE :=
            Nat.le_trans (List.length_take_le _ _) (by omega)
          refine ⟨((data.drop pos).take (k - pos)).length, _, hle, ?_,
            Or.inl (by rw [← e]; rfl)⟩
          rw [source_step, hgrow]
          rfl
        · simp only [decide_eq_false hk, Bool.false_eq_true, if_false] at h
          by_cases hshort : ((data.drop pos).take BUF_SIZE).length < BUF_SIZE
          · rw [if_pos hshort] at h
            have e := Option.some.inj h
            refine ⟨((data.drop pos).take BUF_SIZE).length, _, List.length_take_le _ _, ?_,
              Or.inl (by rw [← e]; rfl)⟩
            rw [source_step, hgrow]
            rfl
          · rw [if_neg hshort] at h
            refine ⟨((data.drop pos).take BUF_SIZE).length, _, List.length_take_le _ _, ?_,
              Or.inr h⟩
            rw [source_step, hgrow]
            rfl
    · rw [if_neg hb] at h
      exact absurd h (by simp)

/-- The reading loop of `main` is a run of the events of the source buffer:
the length and the capacity it ends with are those of a sequence of chunks of
at most `BUF_SIZE` bytes run from the length and the capacity it started
with, and it ends with `realloc` failing when that run does. -/
theorem read_loop_events (data : List Nat) (fault : Option Nat) (heap_limit : Nat) :
    ∀ (fuel pos : Nat) (g : Globals) (r : ReadResult),
    read_loop data fault heap_limit fuel pos g = some r →
    ∃ events : List ReadEvent, (∀ e ∈ events, e.bytes ≤ BUF_SIZE) ∧
      source_run heap_limit events g.buf = r.buf := by
  intro fuel
  induction fuel with
  | zero =>
    intro pos g r h
    have h0 : read_loop data fault heap_limit 0 pos g = none := rfl
    rw [h0] at h
    exact absurd h (by simp)
  | succ fuel ih =>
    intro pos g r h
    rcases read_loop_iteration data fault heap_limit fuel pos g r h
      with ⟨hgrow, hr⟩ | ⟨n, g1, hn, hstep, hr | hrec⟩
    · refine ⟨[ReadEvent.chunk 0], by simp [ReadEvent.bytes], ?_⟩
      rw [source_run, source_step, hgrow, hr]
      rfl
    · refine ⟨[ReadEvent.chunk n], by simpa [ReadEvent.bytes] using hn, ?_⟩
      rw [source_run, hstep, hr]
      rfl
    · obtain ⟨events, hbound, hrun⟩ := ih _ g1 r hrec
      refine ⟨ReadEvent.chunk n :: events, ?_, ?_⟩
      · intro e he
        rcases List.mem_cons.mp he with rfl | he
        · exact hn
        · exact hbound e he
      · rw [source_run, hstep, Option.some_bind, hrun]

/-! ### The destination buffer of the compressing build -/

/-- C15: for a source length `len` within the source capacity `cap` and no
overflow of `unsigned long`, the destination size computed on line 359 is
`cap + (cap + 9) / 10 + 12`, which is at least `len + len / 10 + 12`; after
the allocation step, whatever the capacity was before (so for every file of
the run), the capacity of the destination buffer is at least that size and is
the length handed to the compression routine; and the step succeeds when
`realloc` grants that size. -/
theorem dest_buffer_bound (heap_limit len cap old : Nat) (hlen : len ≤ cap)
    (hno : cap + (cap + 9) / 10 + 12 < ULONG_MOD) :
    dest_size cap = cap + (cap + 9) / 10 + 12 ∧
    len + len / 10 + 12 ≤ dest_size cap ∧
    (∀ r, dest_alloc heap_limit cap old = some r →
      dest_size cap ≤ r.1 ∧ r.2 = r.1 ∧ len + len / 10 + 12 ≤ r.2 ∧ old ≤ r.1) ∧
    (dest_size cap ≤ heap_limit → ∃ r, dest_alloc heap_limit cap old = some r) := by
  have h9 : (cap + 9) % ULONG_MOD = cap + 9 := Nat.mod_eq_of_lt (by omega)
  have hsize : dest_size cap = cap + (cap + 9) / 10 + 12 := by
    unfold dest_size
    rw [h9, Nat.mod_eq_of_lt hno]
  have hbound : len + len / 10 + 12 ≤ dest_size cap := by
    rw [hsize]; omega
  refine ⟨hsize, hbound, ?_, ?_⟩
  · intro r h
    unfold dest_alloc at h
    simp only at h
    by_cases h1 : old < dest_size cap
    · rw [if_pos h1] at h
      by_cases h2 : heap_limit < dest_size cap
      · rw [if_pos h2] at h
        exact absurd h (by simp)
      · rw [if_neg h2] at h
        have e := Option.some.inj h
        subst e
        exact ⟨Nat.le_refl _, rfl, hbound, Nat.le_of_lt h1⟩
    · rw [if_neg h1] at h
      have e := Option.some.inj h
      subst e
      exact ⟨by simp only; omega, rfl, by simp only; omega, Nat.le_refl _⟩
  · intro hmem
    unfold dest_alloc
    simp only
    by_cases h1 : old < dest_size cap
    · rw [if_pos h1, if_neg (by omega)]
      exact ⟨_, rfl⟩
    · rw [if_neg h1]
      exact ⟨_, rfl⟩

/-- Witness of `dest_buffer_bound`: a file of 20000 bytes in a source buffer
of 32768 bytes, the destination buffer still empty. -/
theorem dest_buffer_bound_witness :
    20000 ≤ 32768 ∧ 32768 + (32768 + 9) / 10 + 12 < ULONG_MOD ∧
    (dest_size 32768 = 32768 + (32768 + 9) / 10 + 12 ∧
    20000 + 20000 / 10 + 12 ≤ dest_size 32768 ∧
    (∀ r, dest_alloc (2 ^ 32) 32768 0 = some r →
      dest_size 32768 ≤ r.1 ∧ r.2 = r.1 ∧ 20000 + 20000 / 10 + 12 ≤ r.2 ∧ 0 ≤ r.1) ∧
    (dest_size 32768 ≤ 2 ^ 32 → ∃ r, dest_alloc (2 ^ 32) 32768 0 = some r)) :=
  ⟨by decide, by decide, dest_buffer_bound (2 ^ 32) 20000 32768 0 (by decide) (by decide)⟩

end Bin2c
